import Mathlib

/-! Sliding-window retransmission engine: RTT estimator and retry scheduler.

A shallow embedding of `rtt.go` (the round-trip-time estimator) and of the
timeout priority queue exercised by `pq_test.go`, with the properties stated
in the design document proved or refuted on the embedding.

On float64: `RTT.Est` and `RTT.Alpha` are `float64`.  Every finite float64 is an integer
multiple of `2^-1074`, so a finite value is stored as that integer (`F64.fin k`
stands for `k * 2^-1074`); the two infinities and NaN are separate
constructors.  Each arithmetic operation computes the exact result and rounds
it once to the nearest float64, ties to even, as IEEE 754 prescribes; the
operations of one Go expression are rounded one by one (no fused
multiply-add).  The two zeros are identified: no operation of the program
tells them apart.
-/

namespace Swp

/-! ## float64 arithmetic -/

/-- A float64 value: `fin k` is the finite number `k * 2^-1074`. -/
inductive F64 where
  | fin (k : Int)
  | inf (neg : Bool)
  | nan
  deriving DecidableEq, Repr

/-- The number of grid steps of size `2^-1074` in `1.0`. -/
@[irreducible] def grid : Nat := 2 ^ 1074

/-- Half of `grid`: the number of grid steps in `0.5`. -/
@[irreducible] def halfGrid : Nat := 2 ^ 1073

/-- The largest finite float64, `(2^53 - 1) * 2^971`, in grid steps. -/
@[irreducible] def maxFinite : Nat := (2 ^ 53 - 1) * 2 ^ 971 * grid

/-- Rounds the non-negative quotient `a / d` (in grid steps) to the nearest
magnitude with a 53-bit significand, ties to the even significand.  Below
`2^53` grid steps the float64 values are consecutive integers of grid steps
(subnormals and the first binade); above, the spacing is `2^t` with
`t = floor(log2 (a / d)) - 52`. -/
def roundMag (a d : Nat) : Nat :=
  let t := Nat.log2 (a / d) - 52
  let D := d * 2 ^ t
  let q := a / D
  let r := a % D
  if 2 * r > D ∨ (2 * r = D ∧ q % 2 = 1) then (q + 1) * 2 ^ t else q * 2 ^ t

/-- Rounds the exact quotient `n / d` (in grid steps, `d > 0`) to float64;
a rounded magnitude beyond the largest finite value overflows to infinity. -/
def roundQ (n : Int) (d : Nat) : F64 :=
  let m := roundMag n.natAbs d
  if m > maxFinite then F64.inf (decide (n < 0))
  else F64.fin (if n < 0 then -(m : Int) else (m : Int))

/-- Conversion `float64(v)` of an integer. -/
def F64.ofInt (v : Int) : F64 := roundQ (v * grid) 1

/-- The float64 nearest to the decimal constant `n / d`, as the compiler
converts an untyped constant such as `0.1`. -/
def F64.ofRat (n : Int) (d : Nat) : F64 := roundQ (n * grid) d

/-- Unary minus. -/
def F64.neg : F64 → F64
  | F64.fin k => F64.fin (-k)
  | F64.inf s => F64.inf (!s)
  | F64.nan => F64.nan

/-- Float64 addition `x + y`. -/
def F64.add : F64 → F64 → F64
  | F64.fin a, F64.fin b => roundQ (a + b) 1
  | F64.fin _, F64.inf t => F64.inf t
  | F64.inf s, F64.fin _ => F64.inf s
  | F64.inf s, F64.inf t => if s = t then F64.inf s else F64.nan
  | F64.nan, _ => F64.nan
  | _, F64.nan => F64.nan

/-- Float64 subtraction `x - y`. -/
def F64.sub (x y : F64) : F64 := F64.add x (F64.neg y)

/-- Float64 multiplication `x * y`. -/
def F64.mul : F64 → F64 → F64
  | F64.fin a, F64.fin b => roundQ (a * b) grid
  | F64.fin a, F64.inf t => if a = 0 then F64.nan else F64.inf (t != decide (a < 0))
  | F64.inf s, F64.fin b => if b = 0 then F64.nan else F64.inf (s != decide (b < 0))
  | F64.inf s, F64.inf t => F64.inf (s != t)
  | F64.nan, _ => F64.nan
  | _, F64.nan => F64.nan

/-- Float64 division `x / y`; a zero divisor is taken as `+0`. -/
def F64.div : F64 → F64 → F64
  | F64.fin a, F64.fin b =>
      if b = 0 then (if a = 0 then F64.nan else F64.inf (decide (a < 0)))
      else roundQ (a * grid * Int.sign b) b.natAbs
  | F64.fin _, F64.inf _ => F64.fin 0
  | F64.inf s, F64.fin b => F64.inf (s != decide (b < 0))
  | F64.inf _, F64.inf _ => F64.nan
  | F64.nan, _ => F64.nan
  | _, F64.nan => F64.nan

/-- Conversion `int64(x)`: the fraction is discarded (truncation toward
zero).  The language leaves the result implementation-dependent when the
truncated value does not fit int64 (also for infinities and NaN): `none`. -/
def F64.toInt64 : F64 → Option Int
  | F64.fin k =>
      let t := k.tdiv grid
      if -2 ^ 63 ≤ t ∧ t < 2 ^ 63 then some t else none
  | _ => none

/-- The integer `v` is a float64 value: its magnitude is `m * 2^s` with a
significand `m` of at most 53 bits.  Every `|v| <= 2^53` is such a value. -/
def Representable (v : Int) : Prop := ∃ m s : Nat, m ≤ 2 ^ 53 ∧ v.natAbs = m * 2 ^ s

/-- Wrap-around of int64 arithmetic. -/
def wrap64 (x : Int) : Int := (x + 2 ^ 63) % 2 ^ 64 - 2 ^ 63

/-! ## RTT estimator (`rtt.go`) -/

/-- The operations of the dispersion tracker `sdTracker`, whose source is not
part of `rtt.go`: `newSdTracker(dim)`, `addObs(obs, weight)` and `sd()`, over
an arbitrary tracker state `S`. -/
structure SdOps (S : Type) where
  newSdTracker : Int → S
  addObs : S → List F64 → F64 → S
  sd : S → List F64

/-- The estimator state, `type RTT struct`. -/
structure RTT (S : Type) where
  Est : F64
  Alpha : F64
  N : Int
  Sd : S

/-- A `time.Duration` of ten milliseconds, in nanoseconds. -/
def tenMilliseconds : Int := 10 * 1000000

/-- Embedding of `NewRTT`: `Alpha` is `0.1`, the tracker is `newSdTracker(1)`, the other
fields have their zero values. -/
def NewRTT {S : Type} (ops : SdOps S) : RTT S :=
  { Est := F64.fin 0, Alpha := F64.ofRat 1 10, N := 0, Sd := ops.newSdTracker 1 }

/-- Embedding of `GetEstimate`: `time.Duration(int64(r.Est))`. -/
def GetEstimate {S : Type} (r : RTT S) : Option Int := r.Est.toInt64

/-- Embedding of `GetSd`: the `switch r.N`; indexing an empty `sd()` would panic (`none`). -/
def GetSd {S : Type} (ops : SdOps S) (r : RTT S) : Option Int :=
  if r.N = 0 then some tenMilliseconds
  else if r.N = 1 then (F64.div r.Est (F64.ofInt 2)).toInt64
  else (ops.sd r.Sd).head?.bind F64.toInt64

/-- Embedding of `AddSample`: the counter is incremented, the sample is handed to the
tracker as a one-element observation of weight `1.0`, and the estimate is
either set (first sample) or smoothed. -/
def AddSample {S : Type} (ops : SdOps S) (r : RTT S) (newSample : Int) : RTT S :=
  let n := wrap64 (r.N + 1)
  let sd := ops.addObs r.Sd [F64.ofInt newSample] (F64.ofInt 1)
  let cur := F64.ofInt newSample
  if n = 1 then { Est := cur, Alpha := r.Alpha, N := n, Sd := sd }
  else
    { Est := F64.add (F64.mul r.Alpha cur) (F64.mul (F64.sub (F64.ofInt 1) r.Alpha) r.Est),
      Alpha := r.Alpha, N := n, Sd := sd }

/-- The estimator after feeding `samples`, oldest first. -/
def addSamples {S : Type} (ops : SdOps S) (r : RTT S) (samples : List Int) : RTT S :=
  samples.foldl (AddSample ops) r

/-- A tracker that only records what it is fed; `sd()` reports nothing. -/
def logOps : SdOps (List (List F64 × F64)) :=
  { newSdTracker := fun _ => [], addObs := fun s obs w => s ++ [(obs, w)], sd := fun _ => [] }

/-- An estimator that has recorded one sample of 5 ns, with the logging
tracker. -/
def warmState : RTT (List (List F64 × F64)) :=
  { Est := F64.fin (5 * grid), Alpha := F64.ofRat 1 10, N := 1, Sd := [([F64.fin (5 * grid)], F64.fin grid)] }

/-- The magnitude of one smoothing step `0.1 * x + (1 - 0.1) * e` on
non-negative operands, in grid steps: the float64 `0.1` is
`3602879701896397 / 2^55`, the float64 `1 - 0.1` is `8106479329266893 / 2^53`;
both products and the sum are rounded. -/
def ewmaMag (x e : Nat) : Nat :=
  roundMag (roundMag (3602879701896397 * x) (2 ^ 55) + roundMag (8106479329266893 * e) (2 ^ 53)) 1

/-- The float64 rounding of the quotient `n / d` as a signed number of grid
steps, when it does not overflow. -/
def roundInt (n : Int) (d : Nat) : Int :=
  if n < 0 then -(roundMag n.natAbs d : Int) else (roundMag n.natAbs d : Int)

/-- One smoothing step `0.1 * x + (1 - 0.1) * e` on signed operands, in grid
steps. -/
def ewmaInt (x e : Int) : Int :=
  roundInt (roundInt (3602879701896397 * x) (2 ^ 55) + roundInt (8106479329266893 * e) (2 ^ 53)) 1

/-- The estimate of `e` grid steps is at most half a nanosecond above `hi`
nanoseconds, and not above `hi` at all when `hi` is negative: what survives
of "the estimate is at most `hi`" under rounding. -/
def EstBelow (hi e : Int) : Prop :=
  (0 ≤ hi → 2 * e ≤ (2 * hi + 1) * grid) ∧ (hi < 0 → e ≤ hi * grid)

/-- The mirror image of `EstBelow`: the estimate of `e` grid steps is at most
half a nanosecond below `lo` nanoseconds, and not below `lo` at all when `lo`
is positive. -/
def EstAbove (lo e : Int) : Prop := EstBelow (-lo) (-e)

/-! ## Retry scheduler: the timeout priority queue

`pq_test.go` drives a `PriorityQueue` of `*PqEle` through `container/heap`.
The methods of `PriorityQueue` are not among the sources; they are modelled
from the design document (sections 3 and 4.2).  `Init`, `Push`, `Pop`, `Fix`,
`up` and `down` are the functions of Go's `container/heap`, specialised to
`PriorityQueue`.  A `time.Time` is the number of nanoseconds since the zero
time (January 1 of year 1, 00:00 UTC), so the zero time is `0`.
-/

/-- A packet, reduced to its sequence number (`Pack.SeqNum`). -/
structure Packet where
  SeqNum : Nat
  deriving DecidableEq, Repr

/-- A transmission slot: the retry deadline (`0` is the zero time, meaning
cancelled) and the packet. -/
structure TxqSlot where
  RetryDeadline : Int
  Pack : Packet
  deriving DecidableEq, Repr

/-- A queue entry: the slot and the entry's position in the heap array. -/
structure PqEle where
  slot : TxqSlot
  index : Int
  deriving DecidableEq, Repr

/-- The queue: the heap array. -/
abbrev PriorityQueue := List PqEle

/-- The instant `time.Unix(sec, nsec)`; the Unix epoch lies 62135596800
seconds after the zero time. -/
def unixTime (sec nsec : Int) : Int := (sec + 62135596800) * 1000000000 + nsec

/-- Modelled from the spec: the ordering of two slots, missing from the
sources (`PriorityQueue.Less`).  Deadlines ascend, except that the zero time
sorts after every non-zero deadline. -/
def lessSlot (a b : TxqSlot) : Bool :=
  if a.RetryDeadline = 0 then false
  else if b.RetryDeadline = 0 then true
  else decide (a.RetryDeadline < b.RetryDeadline)

/-- Modelled from the spec: `PriorityQueue.Len`, missing from the sources. -/
def Len (pq : PriorityQueue) : Nat := pq.length

/-- Modelled from the spec: `PriorityQueue.Less`, missing from the sources;
the comparison of the entries at positions `i` and `j`. -/
def Less (pq : PriorityQueue) (i j : Nat) : Bool :=
  match pq[i]?, pq[j]? with
  | some a, some b => lessSlot a.slot b.slot
  | _, _ => false

/-- Modelled from the spec: `PriorityQueue.Swap`, missing from the sources;
exchanges two entries and keeps their `index` fields equal to their
positions. -/
def Swap (pq : PriorityQueue) (i j : Nat) : PriorityQueue :=
  match pq[i]?, pq[j]? with
  | some a, some b => (pq.set i { b with index := i }).set j { a with index := j }
  | _, _ => pq

/-- Modelled from the spec: `PriorityQueue.Push`, missing from the sources;
appends the entry and records its position. -/
def PriorityQueue.Push (pq : PriorityQueue) (x : PqEle) : PriorityQueue :=
  pq ++ [{ x with index := pq.length }]

/-- Modelled from the spec: `PriorityQueue.Pop`, missing from the sources;
removes and returns the last entry of the array. -/
def PriorityQueue.Pop (pq : PriorityQueue) : Option (PqEle × PriorityQueue) :=
  match pq.getLast? with
  | some x => some (x, pq.dropLast)
  | none => none

/-- The loop of `heap.up`, with a bound on the number of iterations. -/
def upLoop : Nat → PriorityQueue → Nat → PriorityQueue
  | 0, pq, _ => pq
  | fuel + 1, pq, j =>
      let i := (j - 1) / 2
      if i = j ∨ Less pq j i = false then pq else upLoop fuel (Swap pq i j) i

/-- Embedding of `heap.up(h, j)`: the position decreases at every iteration, so `j + 1`
iterations are never exhausted. -/
def up (pq : PriorityQueue) (j : Nat) : PriorityQueue := upLoop (j + 1) pq j

/-- The loop of `heap.down`, with a bound on the number of iterations;
returns the queue and the final position. -/
def downLoop : Nat → PriorityQueue → Nat → Nat → PriorityQueue × Nat
  | 0, pq, i, _ => (pq, i)
  | fuel + 1, pq, i, n =>
      let j1 := 2 * i + 1
      if j1 ≥ n then (pq, i)
      else
        let j := if j1 + 1 < n ∧ Less pq (j1 + 1) j1 = true then j1 + 1 else j1
        if Less pq j i = false then (pq, i) else downLoop fuel (Swap pq i j) j n

/-- Embedding of `heap.down(h, i0, n)`: the queue afterwards and whether the entry moved.
The position increases at every iteration and stays below `n`. -/
def down (pq : PriorityQueue) (i0 n : Nat) : PriorityQueue × Bool :=
  let r := downLoop n pq i0 n
  (r.1, decide (r.2 > i0))

/-- Embedding of `heap.Init(h)`: `down` from the last parent to the root. -/
def Init (pq : PriorityQueue) : PriorityQueue :=
  (List.range (Len pq / 2)).reverse.foldl (fun q i => (down q i (Len pq)).1) pq

/-- Embedding of `heap.Push(h, x)`. -/
def Push (pq : PriorityQueue) (x : PqEle) : PriorityQueue :=
  let q := PriorityQueue.Push pq x
  up q (Len q - 1)

/-- Embedding of `heap.Pop(h)`; popping an empty queue panics (`none`). -/
def Pop (pq : PriorityQueue) : Option (PqEle × PriorityQueue) :=
  if Len pq = 0 then none
  else
    let n := Len pq - 1
    PriorityQueue.Pop (down (Swap pq 0 n) 0 n).1

/-- Embedding of `heap.Fix(h, i)`. -/
def Fix (pq : PriorityQueue) (i : Nat) : PriorityQueue :=
  let r := down pq i (Len pq)
  if r.2 = false then up r.1 i else r.1

/-- Modelled from the spec: `PriorityQueue.update`, missing from the sources.
The entry `item` lives at position `item.index`; its slot is replaced and the
heap is repaired around that position. -/
def update (pq : PriorityQueue) (item : PqEle) (slot : TxqSlot) : PriorityQueue :=
  let i := item.index.toNat
  match pq[i]? with
  | some e => Fix (pq.set i { e with slot := slot }) i
  | none => pq

/-- Pops until the queue is empty (`for pq.Len() > 0`), at most `fuel` times;
the popped entries in order. -/
def drainLoop : Nat → PriorityQueue → List PqEle
  | 0, _ => []
  | fuel + 1, pq =>
      match Pop pq with
      | some (x, q) => x :: drainLoop fuel q
      | none => []

/-- The entries in the order in which repeated `heap.Pop` returns them. -/
def drain (pq : PriorityQueue) : List PqEle := drainLoop (Len pq) pq

/-- The ten entries of `Test005PriorityQueue`: entry `i` has the deadline
`time.Unix(10 + (n - i) - 1, 0)` and the sequence number `i`. -/
def testQueue : PriorityQueue :=
  (List.range 10).map fun (i : Nat) =>
    { slot := { RetryDeadline := unixTime (10 + (10 - (i : Int)) - 1) 0, Pack := { SeqNum := i } },
      index := (i : Int) }

/-- The entry that `Test005PriorityQueue` pushes: zero deadline, sequence
number 99987. -/
def testItem : PqEle :=
  { slot := { RetryDeadline := 0, Pack := { SeqNum := 99987 } }, index := 0 }

/-! ### Specification vocabulary for the queue -/

/-- The sort key of a slot: its deadline, with the zero time above every
other deadline. -/
def key (s : TxqSlot) : WithTop Int :=
  if s.RetryDeadline = 0 then ⊤ else (s.RetryDeadline : WithTop Int)

/-- The sort key of the entry at position `i` (top outside the array). -/
def keyAt (pq : PriorityQueue) (i : Nat) : WithTop Int :=
  match pq[i]? with
  | some e => key e.slot
  | none => ⊤

/-- The slots held by the queue, in array order. -/
def slots (pq : PriorityQueue) : List TxqSlot := pq.map (fun e => e.slot)

/-- Exchange of the values of `f` at `i` and `j`. -/
def swapF {K : Type} (f : Nat → K) (i j : Nat) : Nat → K :=
  fun k => if k = j then f i else if k = i then f j else f k

/-- Heap order among the first `n` positions, for every parent at or after
`lo`: a parent's key is at most its child's key. -/
def HeapRange {K : Type} [LinearOrder K] (f : Nat → K) (lo n : Nat) : Prop :=
  ∀ c, 0 < c → c < n → lo ≤ (c - 1) / 2 → f ((c - 1) / 2) ≤ f c

/-- The queue is a heap: no entry sorts before its parent. -/
def IsHeap (pq : PriorityQueue) : Prop := HeapRange (keyAt pq) 0 (Len pq)

/-- The state of `heap.down` at position `i`: heap order may fail only
between `i` and its children, and the parent of `i` is at most the children
of `i`. -/
def DownInv {K : Type} [LinearOrder K] (f : Nat → K) (lo n i : Nat) : Prop :=
  (∀ c, 0 < c → c < n → lo ≤ (c - 1) / 2 → (c - 1) / 2 ≠ i → f ((c - 1) / 2) ≤ f c) ∧
  (∀ c, 0 < c → c < n → (c - 1) / 2 = i → 0 < i → lo ≤ (i - 1) / 2 → f ((i - 1) / 2) ≤ f c)

/-- The state of `heap.up` at position `j`: heap order may fail only between
`j` and its parent, and the parent of `j` is at most the children of `j`. -/
def UpInv {K : Type} [LinearOrder K] (f : Nat → K) (n j : Nat) : Prop :=
  (∀ c, 0 < c → c < n → c ≠ j → f ((c - 1) / 2) ≤ f c) ∧
  (∀ c, 0 < c → c < n → (c - 1) / 2 = j → 0 < j → f ((j - 1) / 2) ≤ f c)

/-- The queues that `heap.Init`, `heap.Push` and `heap.Pop` produce. -/
inductive Built : PriorityQueue → Prop where
  | init (pq : PriorityQueue) : Built (Init pq)
  | push (pq : PriorityQueue) (x : PqEle) : Built pq → Built (Push pq x)
  | pop (pq q : PriorityQueue) (x : PqEle) : Built pq → Pop pq = some (x, q) → Built q

/-- The queue obtained by `heap.Push` of the entries of `xs`, one by one. -/
def pushAll (pq : PriorityQueue) (xs : List PqEle) : PriorityQueue := xs.foldl Push pq

/-- The deadlines of a list of entries. -/
def deadlines (xs : List PqEle) : List Int := xs.map (fun e => e.slot.RetryDeadline)
/-! ## float64: exact cases of rounding -/

theorem roundMag_mul_exact (c d : Nat) (hd : 0 < d) (hc : 2 ^ (Nat.log2 c - 52) ∣ c) :
    roundMag (c * d) d = c := by
  unfold roundMag
  have h1 : c * d / d = c := Nat.mul_div_cancel c hd
  simp only [h1]
  obtain ⟨q, hq⟩ := hc
  set t := Nat.log2 c - 52 with ht
  have hpos : 0 < d * 2 ^ t := Nat.mul_pos hd (by positivity)
  have e1 : c * d = q * (d * 2 ^ t) := by rw [hq]; ring
  have hr : c * d % (d * 2 ^ t) = 0 := by rw [e1]; exact Nat.mul_mod_left _ _
  have hq2 : c * d / (d * 2 ^ t) = q := by rw [e1]; exact Nat.mul_div_cancel q hpos
  rw [hr, hq2]
  have : ¬ (2 * 0 > d * 2 ^ t ∨ 2 * 0 = d * 2 ^ t ∧ q % 2 = 1) := by
    rintro (h | ⟨h, _⟩) <;> omega
  rw [if_neg this, hq]; ring

theorem roundMag_exact (c : Nat) (hc : 2 ^ (Nat.log2 c - 52) ∣ c) : roundMag c 1 = c := by
  have := roundMag_mul_exact c 1 Nat.one_pos hc
  simpa using this

/-- Magnitudes `m * 2^s` with `m ≤ 2^53` have a 53-bit significand. -/
theorem dvd_of_le_two_pow (m s : Nat) (hm : m ≤ 2 ^ 53) :
    2 ^ (Nat.log2 (m * 2 ^ s) - 52) ∣ m * 2 ^ s := by
  rcases Nat.eq_zero_or_pos m with h0 | hpos
  · subst h0; simp
  rcases Nat.lt_or_ge m (2 ^ 53) with hlt | hge
  · have hne : m * 2 ^ s ≠ 0 := by positivity
    have : Nat.log2 (m * 2 ^ s) < 53 + s := by
      rw [Nat.log2_lt hne, pow_add]
      exact Nat.mul_lt_mul_of_pos_right hlt (by positivity)
    exact Dvd.dvd.mul_left (pow_dvd_pow 2 (by omega)) m
  · have hm2 : m = 2 ^ 53 := le_antisymm hm hge
    subst hm2
    rw [← pow_add, Nat.log2_two_pow]
    exact pow_dvd_pow 2 (by omega)


theorem dvd_grid (m : Nat) (hm : m ≤ 2 ^ 53) :
    2 ^ (Nat.log2 (m * grid) - 52) ∣ m * grid := by
  unfold grid; exact dvd_of_le_two_pow m 1074 hm

theorem dvd_halfGrid (m : Nat) (hm : m ≤ 2 ^ 53) :
    2 ^ (Nat.log2 (m * halfGrid) - 52) ∣ m * halfGrid := by
  unfold halfGrid; exact dvd_of_le_two_pow m 1073 hm

theorem mul_grid_le_maxFinite (m : Nat) (h : m ≤ 2 ^ 1000) : m * grid ≤ maxFinite := by
  unfold maxFinite
  exact Nat.mul_le_mul_right _ (le_trans h (by norm_num))

theorem pow1127_le_maxFinite : 2 ^ 53 * grid ≤ maxFinite := by
  unfold maxFinite
  exact Nat.mul_le_mul_right _ (by norm_num)

/-- A quotient that is exactly a float64 magnitude is not changed by rounding. -/
theorem roundQ_mul_exact (c : Int) (d : Nat) (hd : 0 < d)
    (hc : 2 ^ (Nat.log2 c.natAbs - 52) ∣ c.natAbs) (hmax : c.natAbs ≤ maxFinite) :
    roundQ (c * d) d = F64.fin c := by
  unfold roundQ
  have hm : roundMag (c * (d : Int)).natAbs d = c.natAbs := by
    rw [Int.natAbs_mul, Int.natAbs_ofNat]
    exact roundMag_mul_exact _ d hd hc
  simp only [hm]
  rw [if_neg (by omega)]
  congr 1
  have hdpos : (0 : Int) < d := by exact_mod_cast hd
  by_cases hneg : c < 0
  · have : c * (d : Int) < 0 := Int.mul_neg_of_neg_of_pos hneg hdpos
    rw [if_pos this]; omega
  · have : ¬ c * (d : Int) < 0 := by
      have : 0 ≤ c * (d : Int) := Int.mul_nonneg (by omega) (by omega)
      omega
    rw [if_neg this]; omega

theorem ofInt_exact (v : Int) (h : v.natAbs ≤ 2 ^ 53) : F64.ofInt v = F64.fin (v * grid) := by
  unfold F64.ofInt
  have h1 := roundQ_mul_exact (v * grid) 1 Nat.one_pos
    (by rw [Int.natAbs_mul, Int.natAbs_ofNat]; exact dvd_grid _ h)
    (by rw [Int.natAbs_mul, Int.natAbs_ofNat]
        exact le_trans (Nat.mul_le_mul_right _ h) pow1127_le_maxFinite)
  simpa using h1

theorem grid_pos : (0 : Int) < grid := by unfold grid; positivity

theorem toInt64_ofInt (v : Int) (h1 : -2 ^ 63 ≤ v) (h2 : v < 2 ^ 63) :
    (F64.fin (v * grid)).toInt64 = some v := by
  unfold F64.toInt64
  have : (v * (grid : Int)).tdiv grid = v := Int.mul_tdiv_cancel v (ne_of_gt grid_pos)
  simp only [this]
  rw [if_pos ⟨h1, h2⟩]

/-- Evaluation of `roundMag` from a certificate: the spacing exponent `t`, the
quotient `q` and the remainder `r`. -/
theorem roundMag_eq (a d t q r : Nat) (hd : 0 < d)
    (ht : (t = 0 ∧ a < 2 ^ 53 * d) ∨ (2 ^ (t + 52) * d ≤ a ∧ a < 2 ^ (t + 53) * d))
    (h : a = q * (d * 2 ^ t) + r) (hr : r < d * 2 ^ t) :
    roundMag a d =
      if 2 * r > d * 2 ^ t ∨ (2 * r = d * 2 ^ t ∧ q % 2 = 1) then (q + 1) * 2 ^ t else q * 2 ^ t := by
  have hlog : Nat.log2 (a / d) - 52 = t := by
    rcases ht with ⟨h0, hlt⟩ | ⟨hge, hlt⟩
    · subst h0
      have h1 : a / d < 2 ^ 53 := (Nat.div_lt_iff_lt_mul hd).2 hlt
      rcases Nat.eq_zero_or_pos (a / d) with hz | hp
      · rw [hz]; simp
      · have := (Nat.log2_lt (Nat.pos_iff_ne_zero.1 hp)).2 h1
        omega
    · have h1 : 2 ^ (t + 52) ≤ a / d := (Nat.le_div_iff_mul_le hd).2 hge
      have h2 : a / d < 2 ^ (t + 53) := (Nat.div_lt_iff_lt_mul hd).2 hlt
      have hne : a / d ≠ 0 := by
        have : 0 < 2 ^ (t + 52) := by positivity
        omega
      have h3 := (Nat.le_log2 hne).2 h1
      have h4 := (Nat.log2_lt hne).2 h2
      omega
  unfold roundMag
  simp only [hlog]
  have hD : 0 < d * 2 ^ t := Nat.mul_pos hd (by positivity)
  have hq : a / (d * 2 ^ t) = q := by
    rw [h, Nat.add_comm, Nat.add_mul_div_right _ _ hD, Nat.div_eq_of_lt hr, Nat.zero_add]
  have hrr : a % (d * 2 ^ t) = r := by
    rw [h, Nat.add_comm, Nat.add_mul_mod_self_right, Nat.mod_eq_of_lt hr]
  rw [hq, hrr]

theorem tdiv_mul_right (a b c : Int) (hb : 0 < b) (hc : 0 < c) :
    (a * c).tdiv (b * c) = a.tdiv b := by
  rcases le_or_lt 0 a with ha | ha
  · rw [Int.tdiv_eq_ediv (Int.mul_nonneg ha hc.le) (Int.mul_nonneg hb.le hc.le),
      Int.tdiv_eq_ediv ha hb.le, Int.mul_ediv_mul_of_pos_left a b hc]
  · have h1 : a * c = -((-a) * c) := by ring
    have h2 : a = -(-a) := by ring
    have ha2 : 0 ≤ -a := by omega
    rw [h1, Int.neg_tdiv, Int.tdiv_eq_ediv (Int.mul_nonneg ha2 hc.le) (Int.mul_nonneg hb.le hc.le),
      Int.mul_ediv_mul_of_pos_left (-a) b hc]
    conv_rhs => rw [h2, Int.neg_tdiv, Int.tdiv_eq_ediv ha2 hb.le]

theorem grid_eq_two_mul : grid = 2 * halfGrid := by
  unfold grid halfGrid; rw [← pow_succ']

theorem grid_eq_two_mul_int : (grid : Int) = 2 * (halfGrid : Int) := by
  rw [grid_eq_two_mul]; push_cast; rfl

theorem halfGrid_pos : 0 < halfGrid := by unfold halfGrid; positivity

theorem natAbs_le_of_bounds (v : Int) (h1 : -2 ^ 53 ≤ v) (h2 : v ≤ 2 ^ 53) : v.natAbs ≤ 2 ^ 53 := by
  omega

theorem ofInt_two : F64.ofInt 2 = F64.fin (2 * grid) := ofInt_exact 2 (by norm_num)

/-- Dividing `2 * c` by `2.0` gives `c` when `c` is a float64. -/
theorem div_two_of_double (c : Int) (hc : 2 ^ (Nat.log2 c.natAbs - 52) ∣ c.natAbs)
    (hmax : c.natAbs ≤ maxFinite) :
    F64.div (F64.fin (2 * c)) (F64.ofInt 2) = F64.fin c := by
  rw [ofInt_two]
  have hg := grid_pos
  have h2g : (2 * (grid : Int)) ≠ 0 := by omega
  simp only [F64.div, if_neg h2g]
  have hs : Int.sign (2 * (grid : Int)) = 1 := Int.sign_eq_one_of_pos (by omega)
  have hn : (2 * (grid : Int)).natAbs = 2 * grid := by omega
  rw [hs, hn, Int.mul_one]
  have e : 2 * c * (grid : Int) = c * ((2 * grid : Nat) : Int) := by
    push_cast; ring
  rw [e]
  exact roundQ_mul_exact _ _ (by omega) hc hmax

/-- Halving the float64 of an integer `v` with `|v| ≤ 2^53` is exact. -/
theorem div_two_exact (v : Int) (h : v.natAbs ≤ 2 ^ 53) :
    F64.div (F64.fin (v * grid)) (F64.ofInt 2) = F64.fin (v * halfGrid) := by
  have e : v * (grid : Int) = 2 * (v * halfGrid) := by
    rw [grid_eq_two_mul_int]; ring
  have habs : (v * (halfGrid : Int)).natAbs = v.natAbs * halfGrid := by
    rw [Int.natAbs_mul, Int.natAbs_ofNat]
  rw [e]
  apply div_two_of_double
  · rw [habs]; exact dvd_halfGrid _ h
  · rw [habs]
    have h1 : v.natAbs * halfGrid ≤ 2 ^ 53 * halfGrid := Nat.mul_le_mul_right _ h
    have h2 : 2 ^ 53 * halfGrid ≤ 2 ^ 53 * grid := by
      rw [grid_eq_two_mul]; omega
    exact le_trans h1 (le_trans h2 pow1127_le_maxFinite)

theorem toInt64_half (v : Int) (h1 : -2 ^ 53 ≤ v) (h2 : v ≤ 2 ^ 53) :
    (F64.fin (v * halfGrid)).toInt64 = some (v.tdiv 2) := by
  unfold F64.toInt64
  have e : (v * (halfGrid : Int)).tdiv grid = v.tdiv 2 := by
    rw [grid_eq_two_mul_int]
    exact tdiv_mul_right v 2 _ (by norm_num) (by exact_mod_cast halfGrid_pos)
  simp only [e]
  have hb : -2 ^ 63 ≤ v.tdiv 2 ∧ v.tdiv 2 < 2 ^ 63 := by
    have h3 := Int.natAbs_tdiv v 2
    have h4 : v.natAbs.div (2 : Int).natAbs ≤ v.natAbs := Nat.div_le_self _ _
    constructor <;> omega
  rw [if_pos hb]
/-! ## RTT estimator -/

theorem wrap64_id (x : Int) (h1 : -2 ^ 63 ≤ x) (h2 : x < 2 ^ 63) : wrap64 x = x := by
  unfold wrap64; omega

/-- C6. While no sample has been recorded (`N = 0`, as on the estimator made by
`NewRTT`), `GetSd` returns the fixed default of ten milliseconds, whatever the
estimate and the tracker hold. -/
theorem GetSd_no_sample {S : Type} (ops : SdOps S) (r : RTT S) (hN : r.N = 0) :
    GetSd ops r = some 10000000 ∧ (NewRTT ops).N = 0 := by
  refine ⟨?_, rfl⟩
  unfold GetSd
  rw [if_pos hN]; rfl

/-- The default deviation on the estimator made by `NewRTT`. -/
theorem GetSd_no_sample_witness :
    GetSd logOps (NewRTT logOps) = some 10000000 ∧ (NewRTT logOps).N = 0 :=
  GetSd_no_sample logOps (NewRTT logOps) rfl

theorem AddSample_first_fields {S : Type} (ops : SdOps S) (r : RTT S) (v : Int) (hN : r.N = 0) :
    AddSample ops r v =
      { Est := F64.ofInt v, Alpha := r.Alpha, N := 1,
        Sd := ops.addObs r.Sd [F64.ofInt v] (F64.ofInt 1) } := by
  have h : wrap64 (r.N + 1) = 1 := by rw [hN]; unfold wrap64; norm_num
  simp only [AddSample, h, if_true]

/-- Evaluation of `roundQ` at a non-negative numerator from the value of `roundMag`. -/
theorem roundQ_of_nonneg (a d m : Nat) (hm : roundMag a d = m) (hmax : m ≤ maxFinite) :
    roundQ (a : Int) d = F64.fin m := by
  unfold roundQ
  rw [Int.natAbs_ofNat, hm, if_neg (by omega), if_neg (by omega)]

theorem ofInt_two_pow_53_add_one :
    F64.ofInt 9007199254740993 = F64.fin (9007199254740992 * grid) := by
  have hm : roundMag (9007199254740993 * grid) 1 = 9007199254740992 * grid := by
    rw [roundMag_eq _ 1 1075 (2 ^ 52) grid Nat.one_pos
      (Or.inr ⟨by unfold grid; norm_num, by unfold grid; norm_num⟩)
      (by unfold grid; norm_num) (by unfold grid; norm_num)]
    unfold grid; norm_num
  have := roundQ_of_nonneg (9007199254740993 * grid) 1 _ hm
    (le_trans (by norm_num) pow1127_le_maxFinite)
  unfold F64.ofInt
  exact_mod_cast this

/-- C1 fails at `v = 2^53 + 1` ns: the conversion to float64 rounds the sample,
and `GetEstimate()` returns `2^53`. -/
theorem AddSample_first_sample_rounds :
    GetEstimate (AddSample logOps (NewRTT logOps) 9007199254740993) = some 9007199254740992 ∧
    GetEstimate (AddSample logOps (NewRTT logOps) 9007199254740993) ≠ some 9007199254740993 := by
  have h : GetEstimate (AddSample logOps (NewRTT logOps) 9007199254740993)
      = some 9007199254740992 := by
    rw [AddSample_first_fields logOps _ _ rfl]
    show (F64.ofInt 9007199254740993).toInt64 = _
    rw [ofInt_two_pow_53_add_one]
    exact toInt64_ofInt _ (by norm_num) (by norm_num)
  refine ⟨h, ?_⟩
  rw [h]; decide

theorem ofInt_two_pow_53_add_three :
    F64.ofInt 9007199254740995 = F64.fin (9007199254740996 * grid) := by
  have hm : roundMag (9007199254740995 * grid) 1 = 9007199254740996 * grid := by
    rw [roundMag_eq _ 1 1075 4503599627370497 grid Nat.one_pos
      (Or.inr ⟨by unfold grid; norm_num, by unfold grid; norm_num⟩)
      (by unfold grid; norm_num) (by unfold grid; norm_num)]
    unfold grid; norm_num
  have := roundQ_of_nonneg (9007199254740995 * grid) 1 _ hm
    (mul_grid_le_maxFinite _ (by norm_num))
  unfold F64.ofInt
  exact_mod_cast this

/-- C7 fails at `v = 2^53 + 3` ns: the sample is rounded to `2^53 + 4` and
`GetSd()` returns `2^52 + 2`, while `v / 2` is `2^52 + 1`. -/
theorem GetSd_one_sample_rounds :
    GetSd logOps (AddSample logOps (NewRTT logOps) 9007199254740995) = some 4503599627370498 ∧
    Int.tdiv 9007199254740995 2 = 4503599627370497 := by
  refine ⟨?_, by decide⟩
  rw [AddSample_first_fields logOps _ _ rfl]
  unfold GetSd
  simp only [one_ne_zero, if_false, if_true]
  rw [ofInt_two_pow_53_add_three]
  have e : (9007199254740996 * (grid : Int)) = 2 * (4503599627370498 * grid) := by ring
  have habs : (4503599627370498 * (grid : Int)).natAbs = 4503599627370498 * grid := by
    rw [Int.natAbs_mul, Int.natAbs_ofNat]; rfl
  rw [e, div_two_of_double _ (by rw [habs]; exact dvd_grid _ (by norm_num))
    (by rw [habs]; exact mul_grid_le_maxFinite _ (by norm_num))]
  exact toInt64_ofInt _ (by norm_num) (by norm_num)

theorem AddSample_later_fields {S : Type} (ops : SdOps S) (r : RTT S) (v : Int)
    (h1 : 1 ≤ r.N) (h2 : r.N < 2 ^ 63 - 1) :
    AddSample ops r v =
      { Est := F64.add (F64.mul r.Alpha (F64.ofInt v))
          (F64.mul (F64.sub (F64.ofInt 1) r.Alpha) r.Est),
        Alpha := r.Alpha, N := r.N + 1,
        Sd := ops.addObs r.Sd [F64.ofInt v] (F64.ofInt 1) } := by
  have h : wrap64 (r.N + 1) = r.N + 1 := wrap64_id _ (by omega) (by omega)
  have hne : ¬ r.N + 1 = 1 := by omega
  simp only [AddSample, h, if_neg hne]

theorem AddSample_Alpha {S : Type} (ops : SdOps S) (r : RTT S) (v : Int) :
    (AddSample ops r v).Alpha = r.Alpha := by
  unfold AddSample
  dsimp only
  split <;> rfl

theorem AddSample_Sd {S : Type} (ops : SdOps S) (r : RTT S) (v : Int) :
    (AddSample ops r v).Sd = ops.addObs r.Sd [F64.ofInt v] (F64.ofInt 1) := by
  unfold AddSample
  dsimp only
  split <;> rfl

theorem AddSample_N {S : Type} (ops : SdOps S) (r : RTT S) (v : Int) :
    (AddSample ops r v).N = wrap64 (r.N + 1) := by
  unfold AddSample
  dsimp only
  split <;> rfl

theorem addSamples_Sd {S : Type} (ops : SdOps S) (samples : List Int) (r : RTT S) :
    (addSamples ops r samples).Sd =
      samples.foldl (fun s v => ops.addObs s [F64.ofInt v] (F64.ofInt 1)) r.Sd := by
  induction samples generalizing r with
  | nil => rfl
  | cons v vs ih =>
    show (addSamples ops (AddSample ops r v) vs).Sd = _
    rw [ih, AddSample_Sd]; rfl

theorem addSamples_Alpha {S : Type} (ops : SdOps S) (samples : List Int) (r : RTT S) :
    (addSamples ops r samples).Alpha = r.Alpha := by
  induction samples generalizing r with
  | nil => rfl
  | cons v vs ih =>
    show (addSamples ops (AddSample ops r v) vs).Alpha = _
    rw [ih, AddSample_Alpha]

theorem addSamples_N {S : Type} (ops : SdOps S) (samples : List Int) (r : RTT S)
    (h0 : 0 ≤ r.N) (h : r.N + samples.length < 2 ^ 63) :
    (addSamples ops r samples).N = r.N + samples.length := by
  induction samples generalizing r with
  | nil => simp [addSamples]
  | cons v vs ih =>
    show (addSamples ops (AddSample ops r v) vs).N = _
    have hl : ((v :: vs).length : Int) = vs.length + 1 := by simp
    rw [hl] at h
    have hN : (AddSample ops r v).N = r.N + 1 := by
      rw [AddSample_N]; exact wrap64_id _ (by omega) (by omega)
    rw [ih _ (by omega) (by omega), hN, hl]; ring

/-- C8. After two or more samples on the estimator made by `NewRTT`, the
tracker has been fed every sample, oldest first, each as a one-element
observation of weight `1.0`, starting from `newSdTracker(1)`; `GetSd()` is the
first component of the tracker's `sd()` converted to a duration, and does not
depend on `Est` or `Alpha`. -/
theorem GetSd_two_or_more {S : Type} (ops : SdOps S) (samples : List Int)
    (h2 : 2 ≤ samples.length) (hlen : samples.length < 2 ^ 63) :
    (addSamples ops (NewRTT ops) samples).Sd =
        samples.foldl (fun s v => ops.addObs s [F64.ofInt v] (F64.ofInt 1)) (ops.newSdTracker 1) ∧
      GetSd ops (addSamples ops (NewRTT ops) samples) =
        (ops.sd (addSamples ops (NewRTT ops) samples).Sd).head?.bind F64.toInt64 ∧
      ∀ est alpha : F64,
        GetSd ops { addSamples ops (NewRTT ops) samples with Est := est, Alpha := alpha } =
          GetSd ops (addSamples ops (NewRTT ops) samples) := by
  have hN : (addSamples ops (NewRTT ops) samples).N = samples.length := by
    have := addSamples_N ops samples (NewRTT ops) (le_refl _)
      (by show (0 : Int) + _ < _; exact_mod_cast (by omega : 0 + samples.length < 2 ^ 63))
    rw [this]; show (0 : Int) + _ = _; simp
  have h0 : ¬ (addSamples ops (NewRTT ops) samples).N = 0 := by rw [hN]; omega
  have h1 : ¬ (addSamples ops (NewRTT ops) samples).N = 1 := by rw [hN]; omega
  refine ⟨addSamples_Sd ops samples (NewRTT ops), ?_, ?_⟩
  · unfold GetSd; rw [if_neg h0, if_neg h1]
  · intro est alpha
    unfold GetSd
    simp only [h0, h1, if_false]

theorem GetSd_two_or_more_witness :
    (addSamples logOps (NewRTT logOps) [3, 5]).Sd =
        [([F64.ofInt 3], F64.ofInt 1), ([F64.ofInt 5], F64.ofInt 1)] ∧
      GetSd logOps (addSamples logOps (NewRTT logOps) [3, 5]) =
        (logOps.sd (addSamples logOps (NewRTT logOps) [3, 5]).Sd).head?.bind F64.toInt64 :=
  ⟨(GetSd_two_or_more logOps [3, 5] (by decide) (by decide)).1,
    (GetSd_two_or_more logOps [3, 5] (by decide) (by decide)).2.1⟩

/-! ## float64: rounding is monotone and near -/

/-- The shape of every rounding: the spacing exponent `t` of the binade of
`a / d`, the quotient `q` and the remainder `r` by the spacing. -/
theorem roundMag_cases (a d : Nat) (hd : 0 < d) :
    ∃ t q r, ((t = 0 ∧ a < 2 ^ 53 * d) ∨ (0 < t ∧ 2 ^ (t + 52) * d ≤ a ∧ a < 2 ^ (t + 53) * d)) ∧
      a = q * (d * 2 ^ t) + r ∧ r < d * 2 ^ t ∧
      roundMag a d =
        if 2 * r > d * 2 ^ t ∨ (2 * r = d * 2 ^ t ∧ q % 2 = 1) then (q + 1) * 2 ^ t
        else q * 2 ^ t := by
  have hD : ∀ t, 0 < d * 2 ^ t := fun t => Nat.mul_pos hd (by positivity)
  refine ⟨Nat.log2 (a / d) - 52, a / (d * 2 ^ (Nat.log2 (a / d) - 52)),
    a % (d * 2 ^ (Nat.log2 (a / d) - 52)), ?_, ?_, Nat.mod_lt _ (hD _), rfl⟩
  · rcases Nat.eq_zero_or_pos (a / d) with hz | hp
    · left
      rw [hz]
      refine ⟨by simp, ?_⟩
      have := (Nat.div_eq_zero_iff hd).1 hz
      calc a < d := this
        _ = 1 * d := (Nat.one_mul d).symm
        _ ≤ 2 ^ 53 * d := Nat.mul_le_mul_right _ (by norm_num)
    · have hne : a / d ≠ 0 := Nat.pos_iff_ne_zero.1 hp
      have h1 : 2 ^ Nat.log2 (a / d) ≤ a / d := Nat.log2_self_le hne
      have h2 : a / d < 2 ^ (Nat.log2 (a / d) + 1) := Nat.lt_log2_self
      rcases Nat.lt_or_ge (Nat.log2 (a / d)) 53 with hs | hl
      · left
        refine ⟨by omega, ?_⟩
        have : a / d < 2 ^ 53 :=
          lt_of_lt_of_le h2 (Nat.pow_le_pow_right (by norm_num) (by omega))
        exact (Nat.div_lt_iff_lt_mul hd).1 this
      · right
        have e1 : Nat.log2 (a / d) - 52 + 52 = Nat.log2 (a / d) := by omega
        have e2 : Nat.log2 (a / d) - 52 + 53 = Nat.log2 (a / d) + 1 := by omega
        refine ⟨by omega, ?_, ?_⟩
        · rw [e1]; exact (Nat.le_div_iff_mul_le hd).1 h1
        · rw [e2]; exact (Nat.div_lt_iff_lt_mul hd).1 h2
  · rw [Nat.mul_comm]; exact (Nat.div_add_mod _ _).symm

/-- The rounded value is at most half a spacing away from the quotient. -/
theorem roundMag_near (a d : Nat) (hd : 0 < d) :
    ∃ t, ((t = 0 ∧ a < 2 ^ 53 * d) ∨ (0 < t ∧ 2 ^ (t + 52) * d ≤ a ∧ a < 2 ^ (t + 53) * d)) ∧
      2 * a ≤ 2 * (d * roundMag a d) + d * 2 ^ t ∧
      2 * (d * roundMag a d) ≤ 2 * a + d * 2 ^ t ∧ 2 ^ t ∣ roundMag a d := by
  obtain ⟨t, q, r, ht, ha, hr, hres⟩ := roundMag_cases a d hd
  refine ⟨t, ht, ?_⟩
  rw [hres]
  split
  · rename_i hup
    have e : d * ((q + 1) * 2 ^ t) = q * (d * 2 ^ t) + d * 2 ^ t := by ring
    rw [e]
    refine ⟨by omega, ?_, Dvd.intro_left _ rfl⟩
    rcases hup with h | ⟨h, _⟩ <;> omega
  · rename_i hup
    have e : d * (q * 2 ^ t) = q * (d * 2 ^ t) := by ring
    rw [e]
    have h1 : ¬ 2 * r > d * 2 ^ t := fun h => hup (Or.inl h)
    exact ⟨by omega, by omega, Dvd.intro_left _ rfl⟩


/-- Rounding depends on the quotient only. -/
theorem roundMag_scale (a d c : Nat) (hc : 0 < c) : roundMag (a * c) (d * c) = roundMag a d := by
  unfold roundMag
  have h1 : a * c / (d * c) = a / d := Nat.mul_div_mul_right a d hc
  simp only [h1]
  have e : d * c * 2 ^ (Nat.log2 (a / d) - 52) = d * 2 ^ (Nat.log2 (a / d) - 52) * c := by ring
  rw [e, Nat.mul_div_mul_right _ _ hc, Nat.mul_mod_mul_right]
  have hiff : (2 * (a % (d * 2 ^ (Nat.log2 (a / d) - 52)) * c) >
        d * 2 ^ (Nat.log2 (a / d) - 52) * c ∨
      2 * (a % (d * 2 ^ (Nat.log2 (a / d) - 52)) * c) = d * 2 ^ (Nat.log2 (a / d) - 52) * c ∧
        a / (d * 2 ^ (Nat.log2 (a / d) - 52)) % 2 = 1) ↔
      (2 * (a % (d * 2 ^ (Nat.log2 (a / d) - 52))) > d * 2 ^ (Nat.log2 (a / d) - 52) ∨
      2 * (a % (d * 2 ^ (Nat.log2 (a / d) - 52))) = d * 2 ^ (Nat.log2 (a / d) - 52) ∧
        a / (d * 2 ^ (Nat.log2 (a / d) - 52)) % 2 = 1) := by
    generalize a % (d * 2 ^ (Nat.log2 (a / d) - 52)) = r
    generalize d * 2 ^ (Nat.log2 (a / d) - 52) = D
    have e2 : 2 * (r * c) = (2 * r) * c := by ring
    rw [e2]
    constructor
    · rintro (h | ⟨h, h2⟩)
      · exact Or.inl (Nat.lt_of_mul_lt_mul_right h)
      · exact Or.inr ⟨Nat.eq_of_mul_eq_mul_right hc h, h2⟩
    · rintro (h | ⟨h, h2⟩)
      · exact Or.inl (Nat.mul_lt_mul_of_pos_right h hc)
      · exact Or.inr ⟨by rw [h], h2⟩
  by_cases hup : (2 * (a % (d * 2 ^ (Nat.log2 (a / d) - 52))) > d * 2 ^ (Nat.log2 (a / d) - 52) ∨
      2 * (a % (d * 2 ^ (Nat.log2 (a / d) - 52))) = d * 2 ^ (Nat.log2 (a / d) - 52) ∧
        a / (d * 2 ^ (Nat.log2 (a / d) - 52)) % 2 = 1)
  · rw [if_pos (hiff.2 hup), if_pos hup]
  · rw [if_neg (fun h => hup (hiff.1 h)), if_neg hup]

/-- Rounding is monotone, for one denominator. -/
theorem roundMag_mono_num (a b d : Nat) (hd : 0 < d) (h : a ≤ b) :
    roundMag a d ≤ roundMag b d := by
  obtain ⟨t, q, r, ht, ha, hr, hres⟩ := roundMag_cases a d hd
  obtain ⟨t2, q2, r2, ht2, hb, hr2, hres2⟩ := roundMag_cases b d hd
  have hlo : q * 2 ^ t ≤ roundMag a d ∧ roundMag a d ≤ (q + 1) * 2 ^ t := by
    rw [hres]; split
    · exact ⟨Nat.mul_le_mul_right _ (by omega), le_refl _⟩
    · exact ⟨le_refl _, Nat.mul_le_mul_right _ (by omega)⟩
  have hlo2 : q2 * 2 ^ t2 ≤ roundMag b d := by
    rw [hres2]; split
    · exact Nat.mul_le_mul_right _ (by omega)
    · exact le_refl _
  have hP : ∀ n : Nat, 0 < 2 ^ n := fun n => by positivity
  have hq53 : q < 2 ^ 53 := by
    have h1 : a < 2 ^ (t + 53) * d := by
      rcases ht with ⟨h0, h1⟩ | ⟨_, _, h1⟩
      · rw [h0]; simpa using h1
      · exact h1
    have h2 : q * (d * 2 ^ t) < 2 ^ 53 * (d * 2 ^ t) := by
      have e : 2 ^ (t + 53) * d = 2 ^ 53 * (d * 2 ^ t) := by rw [pow_add]; ring
      omega
    exact Nat.lt_of_mul_lt_mul_right h2
  rcases Nat.lt_trichotomy t t2 with hlt | heq | hgt
  · -- the binade of b lies above the binade of a
    have ht2pos : 0 < t2 := by omega
    have hb1 : 2 ^ (t2 + 52) * d ≤ b := by
      rcases ht2 with ⟨h0, _⟩ | ⟨_, h1, _⟩
      · omega
      · exact h1
    have hq2 : 2 ^ 52 ≤ q2 := by
      by_contra hcon
      have hq2' : q2 + 1 ≤ 2 ^ 52 := by omega
      have h3 : (q2 + 1) * (d * 2 ^ t2) ≤ 2 ^ 52 * (d * 2 ^ t2) := Nat.mul_le_mul_right _ hq2'
      have e : 2 ^ (t2 + 52) * d = 2 ^ 52 * (d * 2 ^ t2) := by rw [pow_add]; ring
      have e2 : (q2 + 1) * (d * 2 ^ t2) = q2 * (d * 2 ^ t2) + d * 2 ^ t2 := by ring
      omega
    calc roundMag a d ≤ (q + 1) * 2 ^ t := hlo.2
      _ ≤ 2 ^ 53 * 2 ^ t := Nat.mul_le_mul_right _ (by omega)
      _ = 2 ^ 52 * 2 ^ (t + 1) := by rw [pow_succ]; ring
      _ ≤ 2 ^ 52 * 2 ^ t2 := Nat.mul_le_mul_left _ (Nat.pow_le_pow_right (by norm_num) hlt)
      _ ≤ q2 * 2 ^ t2 := Nat.mul_le_mul_right _ hq2
      _ ≤ roundMag b d := hlo2
  · subst heq
    have hD : 0 < d * 2 ^ t := Nat.mul_pos hd (hP t)
    have hqa : q = a / (d * 2 ^ t) := by
      rw [ha, Nat.add_comm, Nat.add_mul_div_right _ _ hD, Nat.div_eq_of_lt hr, Nat.zero_add]
    have hqb : q2 = b / (d * 2 ^ t) := by
      rw [hb, Nat.add_comm, Nat.add_mul_div_right _ _ hD, Nat.div_eq_of_lt hr2, Nat.zero_add]
    have hqq : q ≤ q2 := by rw [hqa, hqb]; exact Nat.div_le_div_right h
    rcases Nat.lt_or_ge q q2 with hlt | hge
    · calc roundMag a d ≤ (q + 1) * 2 ^ t := hlo.2
        _ ≤ q2 * 2 ^ t := Nat.mul_le_mul_right _ hlt
        _ ≤ roundMag b d := hlo2
    · have heq : q = q2 := le_antisymm hqq hge
      subst heq
      have hrr : r ≤ r2 := by omega
      rw [hres, hres2]
      by_cases hup : 2 * r > d * 2 ^ t ∨ (2 * r = d * 2 ^ t ∧ q % 2 = 1)
      · have hup2 : 2 * r2 > d * 2 ^ t ∨ (2 * r2 = d * 2 ^ t ∧ q % 2 = 1) := by
          rcases hup with h1 | ⟨h1, h2⟩
          · left; omega
          · rcases Nat.lt_or_ge (d * 2 ^ t) (2 * r2) with h3 | h3
            · left; exact h3
            · right; exact ⟨by omega, h2⟩
        rw [if_pos hup, if_pos hup2]
      · rw [if_neg hup]
        split
        · exact Nat.mul_le_mul_right _ (by omega)
        · exact le_refl _
  · -- impossible: the binade of a would lie above the binade of b
    have htpos : 0 < t := by omega
    have ha1 : 2 ^ (t + 52) * d ≤ a := by
      rcases ht with ⟨h0, _⟩ | ⟨_, h1, _⟩
      · omega
      · exact h1
    have hb1 : b < 2 ^ (t2 + 53) * d := by
      rcases ht2 with ⟨h0, h1⟩ | ⟨_, _, h1⟩
      · rw [h0]; simpa using h1
      · exact h1
    have hpw : 2 ^ (t2 + 53) ≤ 2 ^ (t + 52) := Nat.pow_le_pow_right (by norm_num) (by omega)
    have := Nat.mul_le_mul_right d hpw
    omega

/-- Rounding is monotone in the quotient. -/
theorem roundMag_mono (a d a2 d2 : Nat) (hd : 0 < d) (hd2 : 0 < d2) (h : a * d2 ≤ a2 * d) :
    roundMag a d ≤ roundMag a2 d2 := by
  rw [← roundMag_scale a d d2 hd2, ← roundMag_scale a2 d2 d hd, Nat.mul_comm d2 d]
  exact roundMag_mono_num _ _ _ (Nat.mul_pos hd hd2) h


/-- A float64 magnitude below the quotient stays below its rounding. -/
theorem roundMag_ge_of_le (c a d : Nat) (hd : 0 < d) (hc : 2 ^ (Nat.log2 c - 52) ∣ c)
    (h : c * d ≤ a) : c ≤ roundMag a d := by
  have h1 := roundMag_mono c 1 a d Nat.one_pos hd (by simpa using h)
  rwa [roundMag_exact c hc] at h1

/-- A float64 magnitude above the quotient stays above its rounding. -/
theorem roundMag_le_of_le (c a d : Nat) (hd : 0 < d) (hc : 2 ^ (Nat.log2 c - 52) ∣ c)
    (h : a ≤ c * d) : roundMag a d ≤ c := by
  have h1 := roundMag_mono a d c 1 hd Nat.one_pos (by simpa using h)
  rwa [roundMag_exact c hc] at h1

/-- The error of rounding is at most half of any spacing `2^T` whose binade
bounds the quotient. -/
theorem roundMag_err (a d T : Nat) (hd : 0 < d) (h : a < 2 ^ (T + 53) * d) :
    2 * a ≤ 2 * (d * roundMag a d) + d * 2 ^ T ∧
      2 * (d * roundMag a d) ≤ 2 * a + d * 2 ^ T := by
  obtain ⟨t, ht, h1, h2, _⟩ := roundMag_near a d hd
  have htT : t ≤ T := by
    rcases ht with ⟨h0, _⟩ | ⟨_, hlo, _⟩
    · omega
    · by_contra hcon
      have hpw : 2 ^ (T + 53) ≤ 2 ^ (t + 52) := Nat.pow_le_pow_right (by norm_num) (by omega)
      have := Nat.mul_le_mul_right d hpw
      omega
  have hS : d * 2 ^ t ≤ d * 2 ^ T :=
    Nat.mul_le_mul_left _ (Nat.pow_le_pow_right (by norm_num) htT)
  exact ⟨by omega, by omega⟩

/-- A value less than half a spacing below a float64 magnitude of its binade
rounds up to it. -/
theorem roundMag_ge_of_near (s t qm : Nat)
    (hb : (t = 0 ∧ s < 2 ^ 53) ∨ (2 ^ (t + 52) ≤ s ∧ s < 2 ^ (t + 53)))
    (h : 2 * (qm * 2 ^ t) < 2 * s + 2 ^ t) : qm * 2 ^ t ≤ roundMag s 1 := by
  have hP : 0 < 2 ^ t := by positivity
  have hdm := Nat.div_add_mod s (2 ^ t)
  have hr : s % 2 ^ t < 2 ^ t := Nat.mod_lt _ hP
  have hform := roundMag_eq s 1 t (s / 2 ^ t) (s % 2 ^ t) Nat.one_pos
    (by simpa using hb) (by rw [Nat.one_mul, Nat.mul_comm]; exact hdm.symm)
    (by rw [Nat.one_mul]; exact hr)
  rw [hform, Nat.one_mul]
  rcases Nat.lt_or_ge (s / 2 ^ t) qm with hlt | hge
  · -- the quotient is `qm - 1` and the remainder exceeds half the spacing
    have h1 : (s / 2 ^ t + 1) * 2 ^ t ≤ qm * 2 ^ t := Nat.mul_le_mul_right _ hlt
    have e1 : (s / 2 ^ t + 1) * 2 ^ t = 2 ^ t * (s / 2 ^ t) + 2 ^ t := by ring
    have hup : 2 * (s % 2 ^ t) > 2 ^ t := by omega
    rw [if_pos (Or.inl hup)]
    have hq : qm ≤ s / 2 ^ t + 1 := by
      by_contra hcon
      have h2 : (s / 2 ^ t + 2) * 2 ^ t ≤ qm * 2 ^ t := Nat.mul_le_mul_right _ (by omega)
      have e2 : (s / 2 ^ t + 2) * 2 ^ t = 2 ^ t * (s / 2 ^ t) + 2 * 2 ^ t := by ring
      omega
    exact Nat.mul_le_mul_right _ hq
  · have h1 : qm * 2 ^ t ≤ s / 2 ^ t * 2 ^ t := Nat.mul_le_mul_right _ hge
    split
    · exact le_trans h1 (Nat.mul_le_mul_right _ (by omega))
    · exact h1


/-! ## float64: one smoothing step with the weights of `NewRTT` -/

theorem rep_of_binade (m t : Nat) (h1 : 2 ^ (t + 52) ≤ m) (h2 : m < 2 ^ (t + 53))
    (hdiv : 2 ^ t ∣ m) : 2 ^ (Nat.log2 m - 52) ∣ m := by
  have hne : m ≠ 0 := by
    have : 0 < 2 ^ (t + 52) := by positivity
    omega
  have h3 := (Nat.le_log2 hne).2 h1
  have h4 := (Nat.log2_lt hne).2 h2
  have : Nat.log2 m - 52 = t := by omega
  rw [this]; exact hdiv

/-- One smoothing step with the sample and the estimate both at the float64
magnitude `m >= 2^57` grid steps does not fall below `m`: the weights
`0.1` and `1 - 0.1`, as float64, add up to `1 + 2^-55`. -/
theorem ewma_ge_self (m t : Nat) (ht : 5 ≤ t) (hm1 : 2 ^ (t + 52) ≤ m) (hm2 : m < 2 ^ (t + 53))
    (hdiv : 2 ^ t ∣ m) :
    m ≤ ewmaMag m m := by
  unfold ewmaMag
  have hrep := rep_of_binade m t hm1 hm2 hdiv
  obtain ⟨qm, hqm⟩ := hdiv
  have hPpos : 0 < 2 ^ (t - 5) := by positivity
  have e4 : 2 ^ (t - 4) = 2 * 2 ^ (t - 5) := by
    rw [show t - 4 = t - 5 + 1 by omega, pow_succ]; ring
  have e3 : 2 ^ (t - 3) = 4 * 2 ^ (t - 5) := by
    rw [show t - 3 = t - 5 + 2 by omega, pow_add]; ring
  have e1 : 2 ^ (t - 1) = 16 * 2 ^ (t - 5) := by
    rw [show t - 1 = t - 5 + 4 by omega, pow_add]; ring
  have e0 : 2 ^ t = 32 * 2 ^ (t - 5) := by
    conv_lhs => rw [show t = t - 5 + 5 by omega, pow_add]
    ring
  have e49 : 2 ^ (t - 4 + 53) = 2 ^ 54 * 2 ^ (t - 5) := by
    rw [show t - 4 + 53 = t - 5 + 54 by omega, pow_add]; ring
  have e50 : 2 ^ (t - 3 + 53) = 2 ^ 55 * 2 ^ (t - 5) := by
    rw [show t - 3 + 53 = t - 5 + 55 by omega, pow_add]; ring
  have e51 : 2 ^ (t - 1 + 52) = 2 ^ 56 * 2 ^ (t - 5) := by
    rw [show t - 1 + 52 = t - 5 + 56 by omega, pow_add]; ring
  have e52 : 2 ^ (t + 52) = 2 ^ 57 * 2 ^ (t - 5) := by
    rw [show t + 52 = t - 5 + 57 by omega, pow_add]; ring
  have e52b : 2 ^ (t - 1 + 53) = 2 ^ 57 * 2 ^ (t - 5) := by
    rw [show t - 1 + 53 = t - 5 + 57 by omega, pow_add]; ring
  have e53 : 2 ^ (t + 53) = 2 ^ 58 * 2 ^ (t - 5) := by
    rw [show t + 53 = t - 5 + 58 by omega, pow_add]; ring
  rw [e52] at hm1
  rw [e53] at hm2
  rw [e0] at hqm
  generalize hP : 2 ^ (t - 5) = P at *
  generalize hp1 : roundMag (3602879701896397 * m) (2 ^ 55) = p1
  generalize hp2 : roundMag (8106479329266893 * m) (2 ^ 53) = p2
  by_cases hpow : m = 2 ^ 57 * P
  · -- `m` is a power of two: both products lie a binade lower
    have h1 := roundMag_err (3602879701896397 * m) (2 ^ 55) (t - 4) (by positivity)
      (by rw [e49]; omega)
    have h2 := roundMag_err (8106479329266893 * m) (2 ^ 53) (t - 1) (by positivity)
      (by rw [e52b]; omega)
    rw [hp1, e4] at h1
    rw [hp2, e1] at h2
    have hs : m ≤ p1 + p2 + 5 * P := by omega
    rcases Nat.lt_or_ge (p1 + p2) m with hlt | hge
    · have h3 := roundMag_ge_of_near (p1 + p2) (t - 1) (2 ^ 53)
        (Or.inr ⟨by rw [e51]; omega, by rw [e52b]; omega⟩)
        (by rw [e1]; omega)
      rw [e1] at h3
      omega
    · exact roundMag_ge_of_le m _ 1 Nat.one_pos hrep (by omega)
  · have hq : 2 ^ 52 + 1 ≤ qm := by
      by_contra hcon
      have hq2 : qm ≤ 2 ^ 52 := by omega
      have := Nat.mul_le_mul_left (32 * P) hq2
      omega
    have hmq : qm * (32 * P) = m := by rw [hqm]; ring
    have hm3 : 2 ^ 57 * P + 32 * P ≤ m := by
      have := Nat.mul_le_mul_left (32 * P) hq
      omega
    have h1 := roundMag_err (3602879701896397 * m) (2 ^ 55) (t - 3) (by positivity)
      (by rw [e50]; omega)
    have h2 := roundMag_err (8106479329266893 * m) (2 ^ 53) t (by positivity)
      (by rw [e53]; omega)
    rw [hp1, e3] at h1
    rw [hp2, e0] at h2
    have hs : m ≤ p1 + p2 + 14 * P := by omega
    rcases Nat.lt_or_ge (p1 + p2) m with hlt | hge
    · have h3 := roundMag_ge_of_near (p1 + p2) t qm
        (Or.inr ⟨by rw [e52]; omega, by rw [e53]; omega⟩)
        (by rw [e0]; omega)
      rw [e0] at h3
      omega
    · exact roundMag_ge_of_le m _ 1 Nat.one_pos hrep (by omega)


theorem ewmaMag_mono (x e x2 e2 : Nat) (hx : x ≤ x2) (he : e ≤ e2) :
    ewmaMag x e ≤ ewmaMag x2 e2 := by
  unfold ewmaMag
  apply roundMag_mono_num _ _ 1 Nat.one_pos
  exact Nat.add_le_add
    (roundMag_mono_num _ _ _ (by positivity) (Nat.mul_le_mul_left _ hx))
    (roundMag_mono_num _ _ _ (by positivity) (Nat.mul_le_mul_left _ he))

theorem grid_eq_mul : grid = 2 ^ 11 * 2 ^ 1063 := by
  unfold grid; rw [← pow_add]

/-- One smoothing step is within `grid / 32` of the exact weighted sum, for a
sample up to `2^46` and an estimate up to `2^47`. -/
theorem ewmaMag_near (x e : Nat) (hx : x ≤ 2 ^ 46 * grid) (he : e ≤ 2 ^ 47 * grid) :
    2 * 3602879701896397 * x + 8 * 8106479329266893 * e ≤
        2 ^ 56 * ewmaMag x e + 2 ^ 51 * grid ∧
      2 ^ 56 * ewmaMag x e ≤
        2 * 3602879701896397 * x + 8 * 8106479329266893 * e + 2 ^ 51 * grid := by
  unfold ewmaMag
  have e1064 : 2 ^ 1064 = 2 * 2 ^ 1063 := by rw [← pow_succ']
  have e1068 : 2 ^ 1068 = 32 * 2 ^ 1063 := by
    rw [show 1068 = 1063 + 5 by rfl, pow_add]; ring
  have e1069 : 2 ^ 1069 = 64 * 2 ^ 1063 := by
    rw [show 1069 = 1063 + 6 by rfl, pow_add]; ring
  have b1 : 2 ^ (1064 + 53) = 2 ^ 54 * 2 ^ 1063 := by
    rw [show 1064 + 53 = 1063 + 54 by rfl, pow_add]; ring
  have b2 : 2 ^ (1068 + 53) = 2 ^ 58 * 2 ^ 1063 := by
    rw [show 1068 + 53 = 1063 + 58 by rfl, pow_add]; ring
  have b3 : 2 ^ (1069 + 53) = 2 ^ 59 * 2 ^ 1063 := by
    rw [show 1069 + 53 = 1063 + 59 by rfl, pow_add]; ring
  rw [grid_eq_mul] at hx he ⊢
  have hQ : 0 < 2 ^ 1063 := by positivity
  generalize 2 ^ 1063 = Q at *
  have h1 := roundMag_err (3602879701896397 * x) (2 ^ 55) 1064 (by positivity)
    (by rw [b1]; omega)
  have h2 := roundMag_err (8106479329266893 * e) (2 ^ 53) 1068 (by positivity)
    (by rw [b2]; omega)
  rw [e1064] at h1
  rw [e1068] at h2
  generalize roundMag (3602879701896397 * x) (2 ^ 55) = p1 at *
  generalize roundMag (8106479329266893 * e) (2 ^ 53) = p2 at *
  have h3 := roundMag_err (p1 + p2) 1 1069 Nat.one_pos (by rw [b3]; omega)
  rw [e1069] at h3
  generalize roundMag (p1 + p2) 1 = s at *
  constructor <;> omega


/-! ## Signed rounding -/

theorem roundMag_zero (d : Nat) : roundMag 0 d = 0 := by
  unfold roundMag
  simp

theorem roundInt_neg (n : Int) (d : Nat) : roundInt (-n) d = -roundInt n d := by
  unfold roundInt
  rcases lt_trichotomy n 0 with h | h | h
  · rw [if_neg (by omega), if_pos h, Int.natAbs_neg, neg_neg]
  · subst h; simp [roundMag_zero]
  · rw [if_pos (by omega), if_neg (by omega), Int.natAbs_neg]

theorem roundInt_natCast (a d : Nat) : roundInt (a : Int) d = roundMag a d := by
  unfold roundInt
  rw [if_neg (by omega), Int.natAbs_ofNat]

theorem roundInt_mono (n m : Int) (d : Nat) (hd : 0 < d) (h : n ≤ m) :
    roundInt n d ≤ roundInt m d := by
  unfold roundInt
  by_cases hn : n < 0 <;> by_cases hm : m < 0
  · rw [if_pos hn, if_pos hm]
    have := roundMag_mono_num m.natAbs n.natAbs d hd (by omega)
    omega
  · rw [if_pos hn, if_neg hm]; omega
  · omega
  · rw [if_neg hn, if_neg hm]
    have := roundMag_mono_num n.natAbs m.natAbs d hd (by omega)
    omega

theorem roundInt_scale (n : Int) (d c : Nat) (hc : 0 < c) :
    roundInt (n * c) (d * c) = roundInt n d := by
  unfold roundInt
  have h1 : (n * (c : Int)).natAbs = n.natAbs * c := by
    rw [Int.natAbs_mul, Int.natAbs_ofNat]
  have h2 : n * (c : Int) < 0 ↔ n < 0 := by
    have hc2 : (0 : Int) < c := by exact_mod_cast hc
    constructor
    · intro h
      by_contra h3
      have := mul_nonneg (not_lt.1 h3) hc2.le
      omega
    · intro h
      exact mul_neg_of_neg_of_pos h hc2
  rw [h1, roundMag_scale _ _ _ hc]
  simp only [h2]

theorem roundQ_eq_fin (n : Int) (d : Nat) (h : roundMag n.natAbs d ≤ maxFinite) :
    roundQ n d = F64.fin (roundInt n d) := by
  unfold roundQ roundInt
  simp only []
  rw [if_neg (by omega)]

theorem roundInt_natAbs (n : Int) (d : Nat) : (roundInt n d).natAbs = roundMag n.natAbs d := by
  unfold roundInt
  split <;> simp

theorem ewmaInt_neg (x e : Int) : ewmaInt (-x) (-e) = -ewmaInt x e := by
  unfold ewmaInt
  rw [mul_neg, mul_neg, roundInt_neg, roundInt_neg, ← neg_add, roundInt_neg]

theorem ewmaInt_mono (x e x2 e2 : Int) (hx : x ≤ x2) (he : e ≤ e2) :
    ewmaInt x e ≤ ewmaInt x2 e2 := by
  unfold ewmaInt
  apply roundInt_mono _ _ 1 Nat.one_pos
  exact add_le_add (roundInt_mono _ _ _ (by positivity) (by omega))
    (roundInt_mono _ _ _ (by positivity) (by omega))

theorem ewmaInt_natCast (x e : Nat) : ewmaInt (x : Int) (e : Int) = ewmaMag x e := by
  unfold ewmaInt ewmaMag
  have h1 : (3602879701896397 : Int) * (x : Int) = ((3602879701896397 * x : Nat) : Int) := by
    push_cast; ring
  have h2 : (8106479329266893 : Int) * (e : Int) = ((8106479329266893 * e : Nat) : Int) := by
    push_cast; ring
  rw [h1, h2, roundInt_natCast, roundInt_natCast, ← Nat.cast_add, roundInt_natCast]


/-! ## The weights of `NewRTT` -/

theorem grid_eq_55 : grid = 2 ^ 55 * 2 ^ 1019 := by
  unfold grid; rw [← pow_add]

theorem grid_eq_53 : grid = 2 ^ 53 * 2 ^ 1021 := by
  unfold grid; rw [← pow_add]

/-- The float64 constant `0.1` is `3602879701896397 * 2^-55`. -/
theorem alpha_eq : F64.ofRat 1 10 = F64.fin ((3602879701896397 * 2 ^ 1019 : Nat) : Int) := by
  have hm : roundMag grid 10 = 3602879701896397 * 2 ^ 1019 := by
    rw [roundMag_eq grid 10 1018 7205759403792793 (6 * 2 ^ 1018) (by norm_num)
      (Or.inr ⟨by unfold grid; norm_num, by unfold grid; norm_num⟩)
      (by unfold grid; norm_num) (by norm_num)]
    norm_num
  have hle : 3602879701896397 * 2 ^ 1019 ≤ maxFinite := by
    refine le_trans ?_ (mul_grid_le_maxFinite 1 (by norm_num))
    unfold grid; norm_num
  have := roundQ_of_nonneg grid 10 _ hm hle
  unfold F64.ofRat
  rw [one_mul]
  exact this

theorem sub_fin (a b : Int) : F64.sub (F64.fin a) (F64.fin b) = roundQ (a + -b) 1 := rfl

theorem add_fin (a b : Int) : F64.add (F64.fin a) (F64.fin b) = roundQ (a + b) 1 := rfl

theorem mul_fin (a b : Int) : F64.mul (F64.fin a) (F64.fin b) = roundQ (a * b) grid := rfl

/-- The float64 difference `1.0 - 0.1` is `8106479329266893 * 2^-53`. -/
theorem beta_eq :
    F64.sub (F64.ofInt 1) (F64.ofRat 1 10) = F64.fin ((8106479329266893 * 2 ^ 1021 : Nat) : Int) := by
  have hm : roundMag (32425917317067571 * 2 ^ 1019) 1 = 8106479329266893 * 2 ^ 1021 := by
    rw [roundMag_eq _ 1 1021 8106479329266892 (3 * 2 ^ 1019) Nat.one_pos
      (Or.inr ⟨by norm_num, by norm_num⟩)
      (by norm_num) (by norm_num)]
    norm_num
  have hle : 8106479329266893 * 2 ^ 1021 ≤ maxFinite := by
    refine le_trans ?_ (mul_grid_le_maxFinite 1 (by norm_num))
    unfold grid; norm_num
  have := roundQ_of_nonneg (32425917317067571 * 2 ^ 1019) 1 _ hm hle
  rw [alpha_eq, ofInt_exact 1 (by norm_num)]
  rw [sub_fin]
  have e : 1 * (grid : Int) + -((3602879701896397 * 2 ^ 1019 : Nat) : Int)
      = ((32425917317067571 * 2 ^ 1019 : Nat) : Int) := by
    rw [grid_eq_55]
    simp only [Nat.cast_mul, Nat.cast_pow, Nat.cast_ofNat]
    ring
  rw [e]
  exact this


theorem roundQ_scale_fin (n : Int) (d c : Nat) (hc : 0 < c)
    (h : roundMag n.natAbs d ≤ maxFinite) :
    roundQ (n * (c : Int)) (d * c) = F64.fin (roundInt n d) := by
  have h1 : (n * (c : Int)).natAbs = n.natAbs * c := by
    rw [Int.natAbs_mul, Int.natAbs_ofNat]
  rw [roundQ_eq_fin _ _ (by rw [h1, roundMag_scale _ _ _ hc]; exact h), roundInt_scale _ _ _ hc]

theorem roundMag_le_pow_grid (k a d : Nat) (hk : k ≤ 53) (hd : 0 < d)
    (h : a ≤ 2 ^ k * grid * d) : roundMag a d ≤ 2 ^ k * grid :=
  roundMag_le_of_le _ a d hd (dvd_grid _ (Nat.pow_le_pow_right (by norm_num) hk)) h

theorem pow_grid_le_maxFinite (k : Nat) (hk : k ≤ 53) : 2 ^ k * grid ≤ maxFinite :=
  mul_grid_le_maxFinite _
    (le_trans (Nat.pow_le_pow_right (by norm_num) hk) (by norm_num))

/-- The smoothing expression `Alpha*cur + (1.0-Alpha)*Est` of `AddSample` with
`Alpha = 0.1`, on a sample up to `2^46` and a finite estimate up to `2^47`
in magnitude, is `ewmaInt`. -/
theorem smooth_eq (v e : Int) (hv : v.natAbs ≤ 2 ^ 46) (he : e.natAbs ≤ 2 ^ 47 * grid) :
    F64.add (F64.mul (F64.ofRat 1 10) (F64.ofInt v))
        (F64.mul (F64.sub (F64.ofInt 1) (F64.ofRat 1 10)) (F64.fin e)) =
      F64.fin (ewmaInt (v * grid) e) := by
  have hv2 : (v * (grid : Int)).natAbs ≤ 2 ^ 46 * grid := by
    rw [Int.natAbs_mul, Int.natAbs_ofNat]
    exact Nat.mul_le_mul_right _ hv
  have hb1 : roundMag (3602879701896397 * (v * (grid : Int))).natAbs (2 ^ 55) ≤ 2 ^ 46 * grid := by
    apply roundMag_le_pow_grid 46 _ _ (by norm_num) (by positivity)
    rw [Int.natAbs_mul]
    have : (3602879701896397 : Int).natAbs = 3602879701896397 := rfl
    rw [this]
    generalize (v * (grid : Int)).natAbs = a at hv2 ⊢
    generalize grid = g at hv2 ⊢
    omega
  have hb2 : roundMag (8106479329266893 * e).natAbs (2 ^ 53) ≤ 2 ^ 47 * grid := by
    apply roundMag_le_pow_grid 47 _ _ (by norm_num) (by positivity)
    rw [Int.natAbs_mul]
    have : (8106479329266893 : Int).natAbs = 8106479329266893 := rfl
    rw [this]
    generalize e.natAbs = a at he ⊢
    generalize grid = g at he ⊢
    omega
  have m1 : F64.mul (F64.ofRat 1 10) (F64.ofInt v) =
      F64.fin (roundInt (3602879701896397 * (v * grid)) (2 ^ 55)) := by
    rw [alpha_eq, ofInt_exact v (by omega), mul_fin]
    have e1 : ((3602879701896397 * 2 ^ 1019 : Nat) : Int) * (v * (grid : Int)) =
        (3602879701896397 * (v * (grid : Int))) * ((2 ^ 1019 : Nat) : Int) := by
      simp only [Nat.cast_mul, Nat.cast_pow, Nat.cast_ofNat]
      ring
    rw [e1]
    conv_lhs => arg 2; rw [grid_eq_55]
    exact roundQ_scale_fin _ _ _ (by positivity) (le_trans hb1 (pow_grid_le_maxFinite 46 (by norm_num)))
  have m2 : F64.mul (F64.sub (F64.ofInt 1) (F64.ofRat 1 10)) (F64.fin e) =
      F64.fin (roundInt (8106479329266893 * e) (2 ^ 53)) := by
    rw [beta_eq, mul_fin]
    have e1 : ((8106479329266893 * 2 ^ 1021 : Nat) : Int) * e =
        (8106479329266893 * e) * ((2 ^ 1021 : Nat) : Int) := by
      simp only [Nat.cast_mul, Nat.cast_pow, Nat.cast_ofNat]
      ring
    rw [e1]
    conv_lhs => arg 2; rw [grid_eq_53]
    exact roundQ_scale_fin _ _ _ (by positivity) (le_trans hb2 (pow_grid_le_maxFinite 47 (by norm_num)))
  rw [m1, m2, add_fin]
  unfold ewmaInt
  apply roundQ_eq_fin
  refine le_trans ?_ (pow_grid_le_maxFinite 48 (by norm_num))
  apply roundMag_le_pow_grid 48 _ _ (by norm_num) Nat.one_pos
  rw [← roundInt_natAbs] at hb1 hb2
  generalize roundInt (3602879701896397 * (v * (grid : Int))) (2 ^ 55) = p1 at hb1 ⊢
  generalize roundInt (8106479329266893 * e) (2 ^ 53) = p2 at hb2 ⊢
  generalize grid = g at hb1 hb2 ⊢
  omega


/-! ## The estimate stays within half a nanosecond of the sample range -/

theorem binade_of_mul_grid (H : Nat) (h1 : 1 ≤ H) (h2 : H < 2 ^ 53) :
    ∃ t, 5 ≤ t ∧ 2 ^ (t + 52) ≤ H * grid ∧ H * grid < 2 ^ (t + 53) ∧ 2 ^ t ∣ H * grid := by
  have hne : H ≠ 0 := by omega
  have a1 := Nat.log2_self_le hne
  have a2 := @Nat.lt_log2_self H
  have a3 := (Nat.log2_lt hne).2 h2
  refine ⟨Nat.log2 H + 1022, by omega, ?_, ?_, ?_⟩
  · rw [show Nat.log2 H + 1022 + 52 = Nat.log2 H + 1074 by omega, pow_add]
    unfold grid
    exact Nat.mul_le_mul_right _ a1
  · rw [show Nat.log2 H + 1022 + 53 = Nat.log2 H + 1 + 1074 by omega, pow_add]
    unfold grid
    exact Nat.mul_lt_mul_of_pos_right a2 (by positivity)
  · unfold grid
    exact Dvd.dvd.mul_left (pow_dvd_pow 2 (by omega)) H

theorem ewmaMag_ge_mul_grid (H : Nat) (h2 : H < 2 ^ 53) :
    H * grid ≤ ewmaMag (H * grid) (H * grid) := by
  rcases Nat.eq_zero_or_pos H with h | h
  · subst h; simp
  · obtain ⟨t, ht, b1, b2, b3⟩ := binade_of_mul_grid H h h2
    exact ewma_ge_self _ t ht b1 b2 b3

theorem ewmaMag_le_half (M x e : Nat) (hM : M ≤ 2 ^ 46) (hx : x ≤ M * grid)
    (he : 2 * e ≤ (2 * M + 1) * grid) : 2 * ewmaMag x e ≤ (2 * M + 1) * grid := by
  have hMg : M * grid ≤ 2 ^ 46 * grid := Nat.mul_le_mul_right _ hM
  have e1 : (2 * M + 1) * grid = 2 * (M * grid) + grid := by ring
  rw [e1] at he ⊢
  generalize M * grid = Mg at *
  have hn := (ewmaMag_near x e (by omega) (by omega)).2
  generalize ewmaMag x e = r at *
  generalize grid = g at *
  omega

theorem natCast_mul_grid (M : Nat) : ((M : Int) * (grid : Int)) = ((M * grid : Nat) : Int) := by
  rw [Nat.cast_mul]

theorem ewmaInt_below (hi v e : Int) (h1 : -2 ^ 46 ≤ hi) (h2 : hi ≤ 2 ^ 46) (hv : v ≤ hi)
    (he : EstBelow hi e) : EstBelow hi (ewmaInt (v * grid) e) := by
  have hg := grid_pos
  have hvg : v * (grid : Int) ≤ hi * grid := by nlinarith
  constructor
  · intro h0
    have he2 := he.1 h0
    obtain ⟨M, rfl⟩ := Int.eq_ofNat_of_zero_le h0
    have hE : e ≤ (e.toNat : Int) := Int.self_le_toNat e
    have hE2 : 2 * e.toNat ≤ (2 * M + 1) * grid := by
      have : (2 * (e.toNat : Int)) ≤ (2 * (M : Int) + 1) * grid := by
        rcases le_or_lt 0 e with h | h
        · rw [Int.toNat_of_nonneg h]; exact he2
        · rw [Int.toNat_eq_zero.2 h.le]
          positivity
      exact_mod_cast this
    have hm := ewmaInt_mono _ _ _ _ hvg hE
    rw [natCast_mul_grid, ewmaInt_natCast] at hm
    have := ewmaMag_le_half M (M * grid) e.toNat (by omega) le_rfl hE2
    have : (2 * (ewmaMag (M * grid) e.toNat : Int)) ≤ (2 * (M : Int) + 1) * grid := by
      exact_mod_cast this
    linarith
  · intro h0
    have he2 := he.2 h0
    obtain ⟨H, hH⟩ := Int.eq_ofNat_of_zero_le (show 0 ≤ -hi by omega)
    have hhi : hi = -(H : Int) := by omega
    subst hhi
    have hm := ewmaInt_mono _ _ _ _ hvg he2
    have e1 : -(H : Int) * (grid : Int) = -((H * grid : Nat) : Int) := by
      rw [Nat.cast_mul]; ring
    rw [e1, ewmaInt_neg, ewmaInt_natCast] at hm
    have := ewmaMag_ge_mul_grid H (by
      have : H ≤ 2 ^ 46 := by omega
      omega)
    rw [e1]
    have : ((H * grid : Nat) : Int) ≤ ewmaMag (H * grid) (H * grid) := by exact_mod_cast this
    linarith

theorem ewmaInt_above (lo v e : Int) (h1 : -2 ^ 46 ≤ lo) (h2 : lo ≤ 2 ^ 46) (hv : lo ≤ v)
    (he : EstAbove lo e) : EstAbove lo (ewmaInt (v * grid) e) := by
  unfold EstAbove at he ⊢
  have := ewmaInt_below (-lo) (-v) (-e) (by omega) (by omega) (by omega) he
  rw [neg_mul, ewmaInt_neg] at this
  exact this

theorem estBelow_tdiv (hi e : Int) (he : EstBelow hi e) : e.tdiv grid ≤ hi := by
  have hg := grid_pos
  rcases le_or_lt 0 hi with h0 | h0
  · have he2 := he.1 h0
    rcases le_or_lt 0 e with h | h
    · rw [Int.tdiv_eq_ediv h hg.le]
      have : e / (grid : Int) < hi + 1 := Int.ediv_lt_of_lt_mul hg (by nlinarith)
      omega
    · have : (-e).tdiv grid = -(e.tdiv grid) := Int.neg_tdiv e grid
      have := Int.tdiv_nonneg (show 0 ≤ -e by omega) hg.le
      omega
  · have he2 := he.2 h0
    have e1 : (-e).tdiv grid = -(e.tdiv grid) := Int.neg_tdiv e grid
    rw [Int.tdiv_eq_ediv (show 0 ≤ -e by nlinarith) hg.le] at e1
    have : -hi ≤ (-e) / (grid : Int) := Int.le_ediv_of_mul_le hg (by nlinarith)
    omega

theorem estAbove_tdiv (lo e : Int) (he : EstAbove lo e) : lo ≤ e.tdiv grid := by
  have := estBelow_tdiv (-lo) (-e) he
  rw [Int.neg_tdiv] at this
  omega

theorem estBelow_natAbs (lo hi e : Int) (h1 : -2 ^ 46 ≤ lo) (h2 : hi ≤ 2 ^ 46)
    (ha : EstAbove lo e) (hb : EstBelow hi e) : e.natAbs ≤ 2 ^ 47 * grid := by
  have hg := grid_pos
  have u : 2 * e ≤ (2 * 2 ^ 46 + 1) * grid := by
    rcases le_or_lt 0 hi with h0 | h0
    · have := hb.1 h0; nlinarith
    · have := hb.2 h0; nlinarith
  have l : 2 * (-e) ≤ (2 * 2 ^ 46 + 1) * grid := by
    rcases le_or_lt 0 (-lo) with h0 | h0
    · have := ha.1 h0; nlinarith
    · have := ha.2 h0; nlinarith
  have : ((e.natAbs : Nat) : Int) ≤ ((2 ^ 47 * grid : Nat) : Int) := by
    rw [Nat.cast_mul]
    push_cast
    rw [abs_le]
    constructor <;> nlinarith
  exact_mod_cast this

theorem estBelow_self (hi v : Int) (hv : v ≤ hi) : EstBelow hi (v * grid) := by
  have hg := grid_pos
  constructor
  · intro _; nlinarith
  · intro _; nlinarith

theorem estAbove_self (lo v : Int) (hv : lo ≤ v) : EstAbove lo (v * grid) := by
  unfold EstAbove
  have := estBelow_self (-lo) (-v) (by omega)
  rw [neg_mul] at this
  exact this


/-! ## Signed error bounds -/

/-- Every rounded magnitude has a significand of at most 53 bits. -/
theorem roundMag_form (a d : Nat) (hd : 0 < d) :
    ∃ m t, m ≤ 2 ^ 53 ∧ roundMag a d = m * 2 ^ t ∧
      ((t = 0 ∧ a < 2 ^ 53 * d) ∨ (0 < t ∧ 2 ^ (t + 52) * d ≤ a ∧ a < 2 ^ (t + 53) * d)) := by
  obtain ⟨t, q, r, hb, ha, hr, hm⟩ := roundMag_cases a d hd
  have hlt : a < 2 ^ (t + 53) * d := by
    rcases hb with ⟨h0, h⟩ | ⟨_, _, h⟩
    · subst h0; simpa using h
    · exact h
  have hq : q < 2 ^ 53 := by
    by_contra hcon
    have h1 : 2 ^ 53 * (d * 2 ^ t) ≤ q * (d * 2 ^ t) := Nat.mul_le_mul_right _ (not_lt.1 hcon)
    have h2 : 2 ^ (t + 53) * d = 2 ^ 53 * (d * 2 ^ t) := by rw [pow_add]; ring
    omega
  by_cases hc : 2 * r > d * 2 ^ t ∨ (2 * r = d * 2 ^ t ∧ q % 2 = 1)
  · exact ⟨q + 1, t, by omega, by rw [hm, if_pos hc], hb⟩
  · exact ⟨q, t, by omega, by rw [hm, if_neg hc], hb⟩

theorem roundInt_err (n : Int) (d T : Nat) (hd : 0 < d) (h : n.natAbs < 2 ^ (T + 53) * d) :
    2 * n ≤ 2 * ((d : Int) * roundInt n d) + (d : Int) * 2 ^ T ∧
      2 * ((d : Int) * roundInt n d) ≤ 2 * n + (d : Int) * 2 ^ T := by
  obtain ⟨h1, h2⟩ := roundMag_err n.natAbs d T hd h
  have c1 : (2 * (n.natAbs : Int)) ≤ 2 * ((d : Int) * (roundMag n.natAbs d : Int)) + (d : Int) * 2 ^ T := by
    exact_mod_cast h1
  have c2 : 2 * ((d : Int) * (roundMag n.natAbs d : Int)) ≤ 2 * (n.natAbs : Int) + (d : Int) * 2 ^ T := by
    exact_mod_cast h2
  have hp : (0 : Int) ≤ (d : Int) * 2 ^ T := by positivity
  unfold roundInt
  by_cases hn : n < 0
  · rw [if_pos hn]
    have : (n.natAbs : Int) = -n := by omega
    rw [this] at c1 c2
    constructor <;> linarith
  · rw [if_neg hn]
    have : (n.natAbs : Int) = n := by omega
    rw [this] at c1 c2
    constructor <;> linarith


/-- One smoothing step on signed operands is within `grid / 32` of the exact
weighted sum, for a sample up to `2^46` and an estimate up to `2^47` in
magnitude. -/
theorem ewmaInt_near (x e : Int) (hx : x.natAbs ≤ 2 ^ 46 * grid) (he : e.natAbs ≤ 2 ^ 47 * grid) :
    2 * 3602879701896397 * x + 8 * 8106479329266893 * e ≤
        2 ^ 56 * ewmaInt x e + 2 ^ 51 * (grid : Int) ∧
      2 ^ 56 * ewmaInt x e ≤
        2 * 3602879701896397 * x + 8 * 8106479329266893 * e + 2 ^ 51 * (grid : Int) := by
  unfold ewmaInt
  have e1064 : (2 : Int) ^ 1064 = 2 * 2 ^ 1063 := by rw [← pow_succ']
  have e1068 : (2 : Int) ^ 1068 = 32 * 2 ^ 1063 := by
    rw [show 1068 = 1063 + 5 by rfl, pow_add]; ring
  have e1069 : (2 : Int) ^ 1069 = 64 * 2 ^ 1063 := by
    rw [show 1069 = 1063 + 6 by rfl, pow_add]; ring
  have b1 : 2 ^ (1064 + 53) = 2 ^ 54 * 2 ^ 1063 := by
    rw [show 1064 + 53 = 1063 + 54 by rfl, pow_add]; ring
  have b2 : 2 ^ (1068 + 53) = 2 ^ 58 * 2 ^ 1063 := by
    rw [show 1068 + 53 = 1063 + 58 by rfl, pow_add]; ring
  have b3 : 2 ^ (1069 + 53) = 2 ^ 59 * 2 ^ 1063 := by
    rw [show 1069 + 53 = 1063 + 59 by rfl, pow_add]; ring
  have hgI : (grid : Int) = 2 ^ 11 * 2 ^ 1063 := by
    rw [grid_eq_mul]; simp only [Nat.cast_mul, Nat.cast_pow, Nat.cast_ofNat]
  have n1 : (3602879701896397 * x).natAbs = 3602879701896397 * x.natAbs := by
    rw [Int.natAbs_mul]; rfl
  have n2 : (8106479329266893 * e).natAbs = 8106479329266893 * e.natAbs := by
    rw [Int.natAbs_mul]; rfl
  rw [grid_eq_mul] at hx he
  rw [hgI]
  have hQ : 0 < 2 ^ 1063 := by positivity
  have hQI : ((2 ^ 1063 : Nat) : Int) = (2 : Int) ^ 1063 := by
    simp only [Nat.cast_pow, Nat.cast_ofNat]
  have h1 := roundInt_err (3602879701896397 * x) (2 ^ 55) 1064 (by positivity)
    (by rw [b1, n1]; generalize 2 ^ 1063 = Q at *; omega)
  have h2 := roundInt_err (8106479329266893 * e) (2 ^ 53) 1068 (by positivity)
    (by rw [b2, n2]; generalize 2 ^ 1063 = Q at *; omega)
  rw [e1064] at h1
  rw [e1068] at h2
  have c55 : ((2 ^ 55 : Nat) : Int) = 2 ^ 55 := by norm_num
  have c53 : ((2 ^ 53 : Nat) : Int) = 2 ^ 53 := by norm_num
  rw [c55] at h1
  rw [c53] at h2
  rw [← hQI] at h1 h2 e1069 ⊢
  generalize roundInt (3602879701896397 * x) (2 ^ 55) = p1 at *
  generalize roundInt (8106479329266893 * e) (2 ^ 53) = p2 at *
  have h3 := roundInt_err (p1 + p2) 1 1069 Nat.one_pos (by
    rw [b3]; generalize 2 ^ 1063 = Q at *; omega)
  rw [e1069] at h3
  generalize roundInt (p1 + p2) 1 = s at *
  generalize 2 ^ 1063 = Q at *
  constructor <;> omega

/-- One smoothing step is within `2/5 * 1/10` ns of the exact real value
`(x + 9 e) / 10`: `|10 * step - (x + 9 e)| <= 2/5` ns. -/
theorem ewmaInt_tenth (x e : Int) (hx : x.natAbs ≤ 2 ^ 46 * grid)
    (he : e.natAbs ≤ 2 ^ 47 * grid) :
    5 * |10 * ewmaInt x e - (x + 9 * e)| ≤ 2 * (grid : Int) := by
  obtain ⟨h1, h2⟩ := ewmaInt_near x e hx he
  have hg : (0 : Int) ≤ grid := Int.ofNat_nonneg _
  generalize ewmaInt x e = s at *
  generalize grid = g at *
  rcases abs_cases (10 * s - (x + 9 * e)) with ⟨h, _⟩ | ⟨h, _⟩ <;> rw [h] <;> omega


/-! ## RTT estimator: the estimate and the sample range -/

theorem addSamples_cons {S : Type} (ops : SdOps S) (r : RTT S) (v : Int) (vs : List Int) :
    addSamples ops r (v :: vs) = addSamples ops (AddSample ops r v) vs := rfl

theorem AddSample_smooth {S : Type} (ops : SdOps S) (r : RTT S) (v e : Int)
    (hA : r.Alpha = F64.ofRat 1 10) (h1 : 1 ≤ r.N) (h2 : r.N < 2 ^ 63 - 1)
    (hE : r.Est = F64.fin e) (hv : v.natAbs ≤ 2 ^ 46) (he : e.natAbs ≤ 2 ^ 47 * grid) :
    (AddSample ops r v).Est = F64.fin (ewmaInt (v * grid) e) ∧
      (AddSample ops r v).Alpha = F64.ofRat 1 10 ∧ (AddSample ops r v).N = r.N + 1 := by
  rw [AddSample_later_fields ops r v h1 h2]
  refine ⟨?_, hA, rfl⟩
  show F64.add (F64.mul r.Alpha (F64.ofInt v)) (F64.mul (F64.sub (F64.ofInt 1) r.Alpha) r.Est) = _
  rw [hA, hE]
  exact smooth_eq v e hv he

theorem addSamples_within {S : Type} (ops : SdOps S) (lo hi : Int)
    (h1 : -2 ^ 46 ≤ lo) (h2 : hi ≤ 2 ^ 46) (samples : List Int)
    (hs : ∀ v ∈ samples, lo ≤ v ∧ v ≤ hi) (r : RTT S) (e : Int)
    (hA : r.Alpha = F64.ofRat 1 10) (hN1 : 1 ≤ r.N) (hN2 : r.N + samples.length < 2 ^ 63)
    (hE : r.Est = F64.fin e) (ha : EstAbove lo e) (hb : EstBelow hi e) :
    ∃ e2, (addSamples ops r samples).Est = F64.fin e2 ∧ EstAbove lo e2 ∧ EstBelow hi e2 := by
  induction samples generalizing r e with
  | nil => exact ⟨e, hE, ha, hb⟩
  | cons v vs ih =>
    have hl : ((v :: vs).length : Int) = vs.length + 1 := by simp
    rw [hl] at hN2
    have hv := hs v (List.mem_cons_self _ _)
    obtain ⟨s1, s2, s3⟩ := AddSample_smooth ops r v e hA hN1 (by omega) hE (by omega)
      (estBelow_natAbs lo hi e h1 h2 ha hb)
    rw [addSamples_cons]
    exact ih (fun x hx => hs x (List.mem_cons_of_mem _ hx)) _ _ s2 (by omega) (by omega) s1
      (ewmaInt_above lo v e h1 (by omega) hv.1 ha)
      (ewmaInt_below hi v e (by omega) h2 hv.2 hb)

theorem estBelow_weak (hi e : Int) (h : EstBelow hi e) : 2 * e ≤ (2 * hi + 1) * grid := by
  have hg := grid_pos
  rcases le_or_lt 0 hi with h0 | h0
  · exact h.1 h0
  · have := h.2 h0; nlinarith

theorem estAbove_weak (lo e : Int) (h : EstAbove lo e) : (2 * lo - 1) * grid ≤ 2 * e := by
  have := estBelow_weak (-lo) (-e) h
  linarith

theorem addSamples_fresh_within {S : Type} (ops : SdOps S) (lo hi : Int)
    (h1 : -2 ^ 46 ≤ lo) (h2 : hi ≤ 2 ^ 46) (samples : List Int) (hne : samples ≠ [])
    (hs : ∀ v ∈ samples, lo ≤ v ∧ v ≤ hi) (hlen : samples.length < 2 ^ 63) :
    ∃ e, (addSamples ops (NewRTT ops) samples).Est = F64.fin e ∧ EstAbove lo e ∧ EstBelow hi e := by
  cases samples with
  | nil => exact absurd rfl hne
  | cons v vs =>
    have hv := hs v (List.mem_cons_self _ _)
    have hl : (v :: vs).length = vs.length + 1 := by simp
    rw [hl] at hlen
    rw [addSamples_cons, AddSample_first_fields ops _ v rfl]
    refine addSamples_within ops lo hi h1 h2 vs (fun x hx => hs x (List.mem_cons_of_mem _ hx))
      _ (v * grid) rfl (le_refl _) ?_ ?_ (estAbove_self lo v hv.1) (estBelow_self hi v hv.2)
    · show (1 : Int) + (vs.length : Int) < 2 ^ 63
      have : ((vs.length + 1 : Nat) : Int) < ((2 ^ 63 : Nat) : Int) := by exact_mod_cast hlen
      push_cast at this
      omega
    · exact ofInt_exact v (by omega)

/-- C10, amended. For every non-empty sequence of samples, each of magnitude at
most `2^46` ns, added with `AddSample` to the estimator made by `NewRTT`
(`Alpha = 0.1`): `Est` is finite and within half a nanosecond of the range
from the smallest to the largest sample, `GetEstimate()` is never below the
smallest nor above the largest sample, and it is non-negative when every
sample is non-negative. -/
theorem estimate_within_samples {S : Type} (ops : SdOps S) (samples : List Int)
    (hne : samples ≠ []) (hs : ∀ v ∈ samples, -2 ^ 46 ≤ v ∧ v ≤ 2 ^ 46)
    (hlen : samples.length < 2 ^ 63) :
    ∃ e : Int, (addSamples ops (NewRTT ops) samples).Est = F64.fin e ∧
      GetEstimate (addSamples ops (NewRTT ops) samples) = some (e.tdiv grid) ∧
      (∀ lo hi : Int, (∀ v ∈ samples, lo ≤ v ∧ v ≤ hi) →
        (2 * lo - 1) * grid ≤ 2 * e ∧ 2 * e ≤ (2 * hi + 1) * grid ∧
          lo ≤ e.tdiv grid ∧ e.tdiv grid ≤ hi) ∧
      ((∀ v ∈ samples, 0 ≤ v) → 0 ≤ e.tdiv grid) := by
  obtain ⟨e, hE, ha, hb⟩ := addSamples_fresh_within ops (-2 ^ 46) (2 ^ 46) (le_refl _) (le_refl _)
    samples hne hs hlen
  have key : ∀ lo hi : Int, (∀ v ∈ samples, lo ≤ v ∧ v ≤ hi) →
      (2 * lo - 1) * grid ≤ 2 * e ∧ 2 * e ≤ (2 * hi + 1) * grid ∧
        lo ≤ e.tdiv grid ∧ e.tdiv grid ≤ hi := by
    intro lo hi hb2
    have hg := grid_pos
    obtain ⟨e2, hE2, ha2, hb3⟩ := addSamples_fresh_within ops (max lo (-2 ^ 46)) (min hi (2 ^ 46))
      (le_max_right _ _) (min_le_right _ _) samples hne
      (fun v hv => ⟨max_le (hb2 v hv).1 (hs v hv).1, le_min (hb2 v hv).2 (hs v hv).2⟩) hlen
    have : e2 = e := by
      rw [hE] at hE2
      exact (F64.fin.inj hE2).symm
    subst this
    have t1 := estAbove_tdiv _ _ ha2
    have t2 := estBelow_tdiv _ _ hb3
    have w1 := estAbove_weak _ _ ha2
    have w2 := estBelow_weak _ _ hb3
    have m1 : lo ≤ max lo (-2 ^ 46) := le_max_left _ _
    have m2 : min hi (2 ^ 46) ≤ hi := min_le_left _ _
    refine ⟨?_, ?_, le_trans m1 t1, le_trans t2 m2⟩
    · nlinarith
    · nlinarith
  refine ⟨e, hE, ?_, key, ?_⟩
  · have t1 := estAbove_tdiv _ _ ha
    have t2 := estBelow_tdiv _ _ hb
    show (addSamples ops (NewRTT ops) samples).Est.toInt64 = _
    rw [hE]
    unfold F64.toInt64
    simp only []
    rw [if_pos ⟨by omega, by omega⟩]
  · intro h0
    exact (key 0 (2 ^ 46) (fun x hx => ⟨h0 x hx, (hs x hx).2⟩)).2.2.1


theorem ewmaMag_13 : ewmaMag (13 * grid) (13 * grid) = 13 * grid + 2 ^ 1025 := by
  unfold ewmaMag
  have p1 : roundMag (3602879701896397 * (13 * grid)) (2 ^ 55) = 5854679515581645 * 2 ^ 1022 := by
    rw [roundMag_eq _ _ 1022 5854679515581645 (2 ^ 1074) (by norm_num)
      (Or.inr ⟨by unfold grid; norm_num, by unfold grid; norm_num⟩)
      (by unfold grid; norm_num) (by norm_num)]
    norm_num
  have p2 : roundMag (8106479329266893 * (13 * grid)) (2 ^ 53) = 6586514455029351 * 2 ^ 1025 := by
    rw [roundMag_eq _ _ 1025 6586514455029350 (9 * 2 ^ 1074) (by norm_num)
      (Or.inr ⟨by unfold grid; norm_num, by unfold grid; norm_num⟩)
      (by unfold grid; norm_num) (by norm_num)]
    norm_num
  rw [p1, p2]
  rw [roundMag_eq _ 1 1025 7318349394477056 (5 * 2 ^ 1022) Nat.one_pos
    (Or.inr ⟨by norm_num, by norm_num⟩) (by norm_num) (by norm_num)]
  unfold grid
  norm_num

/-- Two samples of 13 ns on a fresh estimator leave the estimate one unit in
the last place above 13. -/
theorem est_13_13 :
    (addSamples logOps (NewRTT logOps) [13, 13]).Est = F64.fin ((13 * grid + 2 ^ 1025 : Nat) : Int) := by
  have h1 : AddSample logOps (NewRTT logOps) 13 = _ := AddSample_first_fields logOps _ 13 rfl
  have hg : ((13 * grid : Nat) : Int).natAbs ≤ 2 ^ 47 * grid := by
    rw [Int.natAbs_ofNat]
    exact Nat.mul_le_mul_right _ (by norm_num)
  have h2 := (AddSample_smooth logOps (AddSample logOps (NewRTT logOps) 13) 13 ((13 * grid : Nat) : Int)
    (by rw [h1]; rfl) (by rw [h1]) (by rw [h1]; decide)
    (by rw [h1]; show F64.ofInt 13 = _; rw [ofInt_exact 13 (by decide), Nat.cast_mul]; rfl)
    (by decide) hg).1
  show (AddSample logOps (AddSample logOps (NewRTT logOps) 13) 13).Est = _
  rw [h2]
  have e1 : (13 : Int) * (grid : Int) = ((13 * grid : Nat) : Int) := by
    rw [Nat.cast_mul]; rfl
  rw [e1, ewmaInt_natCast, ewmaMag_13]

/-- C10 at the samples 5, 7 and 6 ns. -/
theorem estimate_within_samples_witness :
    ∃ e : Int, (addSamples logOps (NewRTT logOps) [5, 7, 6]).Est = F64.fin e ∧
      GetEstimate (addSamples logOps (NewRTT logOps) [5, 7, 6]) = some (e.tdiv grid) ∧
      (∀ lo hi : Int, (∀ v ∈ ([5, 7, 6] : List Int), lo ≤ v ∧ v ≤ hi) →
        (2 * lo - 1) * grid ≤ 2 * e ∧ 2 * e ≤ (2 * hi + 1) * grid ∧
          lo ≤ e.tdiv grid ∧ e.tdiv grid ≤ hi) ∧
      ((∀ v ∈ ([5, 7, 6] : List Int), 0 ≤ v) → 0 ≤ e.tdiv grid) :=
  estimate_within_samples logOps [5, 7, 6] (by decide) (by decide) (by decide)

/-- C10 fails for `Est`: after the samples 13 ns and 13 ns the estimate is one
unit in the last place above 13, the largest sample.  It fails for
`GetEstimate()` beyond `2^53` ns: the single sample `2^53 + 1` gives `2^53`,
below the smallest sample. -/
theorem estimate_exceeds_largest_sample :
    (∃ e : Int, (addSamples logOps (NewRTT logOps) [13, 13]).Est = F64.fin e ∧
        13 * (grid : Int) < e) ∧
      GetEstimate (addSamples logOps (NewRTT logOps) [9007199254740993]) =
        some 9007199254740992 := by
  constructor
  · refine ⟨_, est_13_13, ?_⟩
    rw [Nat.cast_add, Nat.cast_mul]
    have : (0 : Int) < ((2 ^ 1025 : Nat) : Int) := by
      rw [Nat.cast_pow]; positivity
    have e13 : ((13 : Nat) : Int) = 13 := rfl
    rw [e13]
    linarith
  · show GetEstimate (AddSample logOps (NewRTT logOps) 9007199254740993) = _
    rw [AddSample_first_fields logOps _ _ rfl]
    show (F64.ofInt 9007199254740993).toInt64 = _
    rw [ofInt_two_pow_53_add_one]
    exact toInt64_ofInt _ (by norm_num) (by norm_num)

/-! ## RTT estimator: a constant sample -/

theorem estBelow_iff_half (e : Int) :
    EstBelow (2 ^ 46) e ↔ e ≤ 2 ^ 46 * (grid : Int) + halfGrid := by
  have h := grid_eq_two_mul_int
  unfold EstBelow
  constructor
  · intro hb
    have := hb.1 (by norm_num)
    linarith
  · intro hb
    refine ⟨fun _ => by linarith, fun h0 => absurd h0 (by norm_num)⟩

theorem estAbove_iff_half (e : Int) :
    EstAbove (-2 ^ 46) e ↔ -(2 ^ 46 * (grid : Int) + halfGrid) ≤ e := by
  unfold EstAbove
  rw [neg_neg, estBelow_iff_half]
  constructor <;> intro h <;> linarith

theorem ewmaInt_ge_self (c : Nat) (e : Int) (hc : c ≤ 2 ^ 46) (he : (c : Int) * grid ≤ e) :
    (c : Int) * grid ≤ ewmaInt ((c : Int) * grid) e := by
  have h1 := ewmaInt_mono _ _ _ _ (le_refl ((c : Int) * grid)) he
  rw [natCast_mul_grid] at h1 ⊢
  rw [ewmaInt_natCast] at h1
  have h2 : ((c * grid : Nat) : Int) ≤ (ewmaMag (c * grid) (c * grid) : Int) := by
    exact_mod_cast ewmaMag_ge_mul_grid c (by omega)
  exact le_trans h2 h1

theorem ewmaInt_no_cross (c e : Int) (h1 : -2 ^ 46 ≤ c) (h2 : c ≤ 2 ^ 46) :
    (0 ≤ c → c * grid ≤ e → c * grid ≤ ewmaInt (c * grid) e) ∧
      (c ≤ 0 → e ≤ c * grid → ewmaInt (c * grid) e ≤ c * grid) := by
  constructor
  · intro h0 he
    obtain ⟨cn, rfl⟩ := Int.eq_ofNat_of_zero_le h0
    exact ewmaInt_ge_self cn e (by omega) he
  · intro h0 he
    obtain ⟨cn, hcn⟩ := Int.eq_ofNat_of_zero_le (show 0 ≤ -c by omega)
    have := ewmaInt_ge_self cn (-e) (by omega) (by rw [← hcn]; linarith)
    rw [← hcn, neg_mul, ewmaInt_neg] at this
    linarith

theorem closed_form_chain (P Q a b d C g : Int) (hQ : 0 ≤ Q)
    (h1 : 5 * |P * (a - C) - Q * (b - C)| ≤ 2 * (P - Q) * g)
    (h2 : 5 * |10 * b - (C + 9 * d)| ≤ 2 * g) :
    5 * |10 * P * (a - C) - 9 * Q * (d - C)| ≤ 2 * (10 * P - 9 * Q) * g := by
  have key : 10 * P * (a - C) - 9 * Q * (d - C) =
      10 * (P * (a - C) - Q * (b - C)) + Q * (10 * b - (C + 9 * d)) := by ring
  rw [key]
  have t1 := abs_add (10 * (P * (a - C) - Q * (b - C))) (Q * (10 * b - (C + 9 * d)))
  rw [abs_mul, abs_mul, abs_of_nonneg hQ, abs_of_nonneg (by norm_num : (0 : Int) ≤ 10)] at t1
  have t2 : Q * (5 * |10 * b - (C + 9 * d)|) ≤ Q * (2 * g) := mul_le_mul_of_nonneg_left h2 hQ
  nlinarith

theorem addSamples_closed_form {S : Type} (ops : SdOps S) (c : Int)
    (hc1 : -2 ^ 46 ≤ c) (hc2 : c ≤ 2 ^ 46) (k : Nat) (r : RTT S) (e : Int)
    (hA : r.Alpha = F64.ofRat 1 10) (hN1 : 1 ≤ r.N) (hN2 : r.N + k < 2 ^ 63)
    (hE : r.Est = F64.fin e) (ha : EstAbove (-2 ^ 46) e) (hb : EstBelow (2 ^ 46) e) :
    ∃ ek : Int, (addSamples ops r (List.replicate k c)).Est = F64.fin ek ∧
      EstAbove (-2 ^ 46) ek ∧ EstBelow (2 ^ 46) ek ∧
      5 * |10 ^ k * (ek - c * grid) - 9 ^ k * (e - c * grid)| ≤ 2 * (10 ^ k - 9 ^ k) * grid ∧
      (0 ≤ c → c * grid ≤ e → c * grid ≤ ek) ∧ (c ≤ 0 → e ≤ c * grid → ek ≤ c * grid) := by
  induction k generalizing r e with
  | zero =>
    refine ⟨e, hE, ha, hb, ?_, fun _ h => h, fun _ h => h⟩
    simp
  | succ k ih =>
    have hk : ((k + 1 : Nat) : Int) = (k : Int) + 1 := by push_cast; rfl
    rw [hk] at hN2
    have hen := estBelow_natAbs (-2 ^ 46) (2 ^ 46) e (le_refl _) (le_refl _) ha hb
    have hcn : c.natAbs ≤ 2 ^ 46 := by omega
    obtain ⟨s1, s2, s3⟩ := AddSample_smooth ops r c e hA hN1 (by omega) hE hcn hen
    have hxn : (c * (grid : Int)).natAbs ≤ 2 ^ 46 * grid := by
      rw [Int.natAbs_mul, Int.natAbs_ofNat]
      exact Nat.mul_le_mul_right _ hcn
    have st := ewmaInt_tenth (c * grid) e hxn hen
    have nc := ewmaInt_no_cross c e hc1 hc2
    obtain ⟨ek, u1, u2, u3, u4, u5, u6⟩ := ih (AddSample ops r c) (ewmaInt (c * grid) e) s2
      (by omega) (by omega) s1
      (ewmaInt_above (-2 ^ 46) c e (le_refl _) (by norm_num) hc1 ha)
      (ewmaInt_below (2 ^ 46) c e (by norm_num) (le_refl _) hc2 hb)
    refine ⟨ek, ?_, u2, u3, ?_, fun h0 h => u5 h0 (nc.1 h0 h), fun h0 h => u6 h0 (nc.2 h0 h)⟩
    · rw [List.replicate_succ, addSamples_cons]; exact u1
    · have := closed_form_chain ((10 : Int) ^ k) ((9 : Int) ^ k) ek (ewmaInt (c * grid) e) e
        (c * grid) (grid : Int) (by positivity) u4 st
      rw [pow_succ, pow_succ]
      have e1 : (10 : Int) ^ k * 10 = 10 * 10 ^ k := by ring
      have e2 : (9 : Int) ^ k * 9 = 9 * 9 ^ k := by ring
      rw [e1, e2]
      exact this


theorem toInt64_fin (k : Int) (h1 : -2 ^ 63 ≤ k.tdiv grid) (h2 : k.tdiv grid < 2 ^ 63) :
    (F64.fin k).toInt64 = some (k.tdiv grid) := by
  unfold F64.toInt64
  simp only []
  rw [if_pos ⟨h1, h2⟩]

/-- C9, amended. With `Alpha = 0.1` as set by `NewRTT`, a constant sample `c`
of magnitude at most `2^46` ns, and an estimator that has recorded at least
one sample (`N >= 1`, `N + k` within the int64 range) and holds a finite
estimate `e` of magnitude at most `2^46 + 1/2` ns: after `k` further calls
`AddSample(c)` the estimate `Est` is finite, still of magnitude at most
`2^46 + 1/2` ns, and follows the closed form up to rounding,
`|Est - (c + (9/10)^k * (e - c))| <= 2/5 * (1 - (9/10)^k)` ns; an estimate not
below a non-negative `c` never falls below `c`, an estimate not above a
non-positive `c` never rises above `c`; `GetEstimate()` is `Est` with the
fraction discarded.  On a fresh estimator the first sample `c` gives
`Est = c`; after `k` further samples `c`, `|Est - c| <= 2/5 * (1 - (9/10)^k)`
ns, `Est` is not below a non-negative `c` and not above a non-positive `c`,
and `GetEstimate()` is exactly `c`. -/
theorem constant_sample_converges {S : Type} (ops : SdOps S) (r : RTT S) (c e : Int) (k : Nat)
    (hA : r.Alpha = F64.ofRat 1 10) (hN1 : 1 ≤ r.N) (hN2 : r.N + k < 2 ^ 63)
    (hE : r.Est = F64.fin e) (hc1 : -2 ^ 46 ≤ c) (hc2 : c ≤ 2 ^ 46)
    (he1 : -(2 ^ 46 * (grid : Int) + halfGrid) ≤ e) (he2 : e ≤ 2 ^ 46 * (grid : Int) + halfGrid) :
    (∃ ek : Int, (addSamples ops r (List.replicate k c)).Est = F64.fin ek ∧
      GetEstimate (addSamples ops r (List.replicate k c)) = some (ek.tdiv grid) ∧
      5 * |10 ^ k * (ek - c * grid) - 9 ^ k * (e - c * grid)| ≤ 2 * (10 ^ k - 9 ^ k) * (grid : Int) ∧
      (0 ≤ c → c * grid ≤ e → c * grid ≤ ek) ∧
      (c ≤ 0 → e ≤ c * grid → ek ≤ c * grid) ∧
      -(2 ^ 46 * (grid : Int) + halfGrid) ≤ ek ∧ ek ≤ 2 ^ 46 * (grid : Int) + halfGrid) ∧
    (AddSample ops (NewRTT ops) c).Est = F64.fin (c * grid) ∧
    (∃ ek : Int, (addSamples ops (NewRTT ops) (List.replicate (k + 1) c)).Est = F64.fin ek ∧
      5 * (10 ^ k * |ek - c * grid|) ≤ 2 * (10 ^ k - 9 ^ k) * (grid : Int) ∧
      (0 ≤ c → c * grid ≤ ek) ∧ (c ≤ 0 → ek ≤ c * grid) ∧
      GetEstimate (addSamples ops (NewRTT ops) (List.replicate (k + 1) c)) = some c) := by
  have hg := grid_pos
  have hcn : c.natAbs ≤ 2 ^ 53 := by omega
  refine ⟨?_, ?_, ?_⟩
  · obtain ⟨ek, u1, u2, u3, u4, u5, u6⟩ := addSamples_closed_form ops c hc1 hc2 k r e hA hN1 hN2 hE
      ((estAbove_iff_half e).2 he1) ((estBelow_iff_half e).2 he2)
    have t1 := estAbove_tdiv _ _ u2
    have t2 := estBelow_tdiv _ _ u3
    refine ⟨ek, u1, ?_, u4, u5, u6, (estAbove_iff_half ek).1 u2, (estBelow_iff_half ek).1 u3⟩
    show (addSamples ops r (List.replicate k c)).Est.toInt64 = _
    rw [u1]
    exact toInt64_fin _ (by omega) (by omega)
  · rw [AddSample_first_fields ops _ _ rfl]
    exact ofInt_exact _ hcn
  · have hk : (1 : Int) + (k : Int) < 2 ^ 63 := by omega
    have hfirst : (AddSample ops (NewRTT ops) c).Est = F64.fin (c * grid) := by
      rw [AddSample_first_fields ops _ _ rfl]
      exact ofInt_exact _ hcn
    have hAl : (AddSample ops (NewRTT ops) c).Alpha = F64.ofRat 1 10 := by
      rw [AddSample_first_fields ops _ _ rfl]; rfl
    have hN : (AddSample ops (NewRTT ops) c).N = 1 := by
      rw [AddSample_first_fields ops _ _ rfl]
    obtain ⟨ek, u1, u2, u3, u4, u5, u6⟩ := addSamples_closed_form ops c hc1 hc2 k
      (AddSample ops (NewRTT ops) c) (c * grid) hAl (by rw [hN]) (by rw [hN]; exact hk) hfirst
      (estAbove_self _ _ hc1) (estBelow_self _ _ hc2)
    obtain ⟨ek2, v1, v2, v3⟩ := addSamples_within ops c c (by omega) (by omega)
      (List.replicate k c) (fun x hx => by rw [List.eq_of_mem_replicate hx]; exact ⟨le_refl _, le_refl _⟩)
      (AddSample ops (NewRTT ops) c) (c * grid) hAl (by rw [hN])
      (by rw [hN, List.length_replicate]; exact hk) hfirst
      (estAbove_self _ _ (le_refl _)) (estBelow_self _ _ (le_refl _))
    have heq : ek2 = ek := by
      rw [u1] at v1
      exact (F64.fin.inj v1).symm
    subst heq
    have t1 := estAbove_tdiv _ _ v2
    have t2 := estBelow_tdiv _ _ v3
    rw [List.replicate_succ, addSamples_cons]
    refine ⟨ek2, u1, ?_, fun h0 => u5 h0 (le_refl _), fun h0 => u6 h0 (le_refl _), ?_⟩
    · rw [sub_self, mul_zero, sub_zero, abs_mul, abs_of_nonneg (by positivity : (0 : Int) ≤ 10 ^ k)] at u4
      exact u4
    · show (addSamples ops _ (List.replicate k c)).Est.toInt64 = _
      rw [u1]
      have q : ek2.tdiv grid = c := by omega
      rw [toInt64_fin _ (by omega) (by omega), q]

/-- C9 at the sample 7 ns, three times, on an estimator holding 5 ns. -/
theorem constant_sample_converges_witness :
    (∃ ek : Int, (addSamples logOps warmState (List.replicate 3 7)).Est = F64.fin ek ∧
      GetEstimate (addSamples logOps warmState (List.replicate 3 7)) = some (ek.tdiv grid) ∧
      5 * |10 ^ 3 * (ek - 7 * grid) - 9 ^ 3 * (5 * (grid : Int) - 7 * grid)| ≤
        2 * (10 ^ 3 - 9 ^ 3) * (grid : Int) ∧
      (0 ≤ (7 : Int) → 7 * grid ≤ 5 * (grid : Int) → 7 * grid ≤ ek) ∧
      ((7 : Int) ≤ 0 → 5 * (grid : Int) ≤ 7 * grid → ek ≤ 7 * grid) ∧
      -(2 ^ 46 * (grid : Int) + halfGrid) ≤ ek ∧ ek ≤ 2 ^ 46 * (grid : Int) + halfGrid) ∧
    (AddSample logOps (NewRTT logOps) 7).Est = F64.fin (7 * grid) ∧
    (∃ ek : Int, (addSamples logOps (NewRTT logOps) (List.replicate (3 + 1) 7)).Est = F64.fin ek ∧
      5 * (10 ^ 3 * |ek - 7 * grid|) ≤ 2 * (10 ^ 3 - 9 ^ 3) * (grid : Int) ∧
      (0 ≤ (7 : Int) → 7 * grid ≤ ek) ∧ ((7 : Int) ≤ 0 → ek ≤ 7 * grid) ∧
      GetEstimate (addSamples logOps (NewRTT logOps) (List.replicate (3 + 1) 7)) = some 7) :=
  constant_sample_converges logOps warmState 7 (5 * grid) 3 rfl (by decide) (by decide) rfl
    (by decide) (by decide)
    (le_trans (neg_nonpos.2 (add_nonneg (Int.mul_nonneg (by decide) (Int.ofNat_nonneg _))
      (Int.ofNat_nonneg _))) (Int.mul_nonneg (by decide) (Int.ofNat_nonneg _)))
    (le_trans (Int.mul_le_mul_of_nonneg_right (by decide) (Int.ofNat_nonneg _))
      (le_add_of_nonneg_right (Int.ofNat_nonneg _)))


/-- C9 fails on a fresh estimator with `c = 13` ns: the first sample gives
`Est = 13`, the second sample 13 does not leave it there. -/
theorem constant_sample_drifts :
    (AddSample logOps (NewRTT logOps) 13).Est = F64.fin (13 * grid) ∧
      (addSamples logOps (NewRTT logOps) [13, 13]).Est ≠ F64.fin (13 * grid) := by
  constructor
  · rw [AddSample_first_fields logOps _ _ rfl]
    exact ofInt_exact 13 (by decide)
  · rw [est_13_13]
    intro h
    have h2 := F64.fin.inj h
    rw [Nat.cast_add, Nat.cast_mul] at h2
    have : (0 : Int) < ((2 ^ 1025 : Nat) : Int) := by
      rw [Nat.cast_pow]; positivity
    have e13 : ((13 : Nat) : Int) = 13 := rfl
    rw [e13] at h2
    linarith

/-! ## RTT estimator: the first sample and the smoothing step -/

theorem representable_of_le (v : Int) (h : v.natAbs ≤ 2 ^ 53) : Representable v :=
  ⟨v.natAbs, 0, h, by simp⟩

theorem representable_dvd (v : Int) (hr : Representable v) :
    2 ^ (Nat.log2 (v * (grid : Int)).natAbs - 52) ∣ (v * (grid : Int)).natAbs := by
  obtain ⟨m, s, hm, hv⟩ := hr
  have e : (v * (grid : Int)).natAbs = m * 2 ^ (s + 1074) := by
    unfold grid
    rw [Int.natAbs_mul, Int.natAbs_ofNat, hv, pow_add, mul_assoc]
  rw [e]
  exact dvd_of_le_two_pow m (s + 1074) hm

theorem natAbs_le_of_int64 (v : Int) (h1 : -2 ^ 63 ≤ v) (h2 : v < 2 ^ 63) : v.natAbs ≤ 2 ^ 63 := by
  omega

theorem natAbs_mul_grid_le (v : Int) (h : v.natAbs ≤ 2 ^ 63) :
    (v * (grid : Int)).natAbs ≤ maxFinite := by
  rw [Int.natAbs_mul, Int.natAbs_ofNat]
  exact le_trans (Nat.mul_le_mul_right _ h) (mul_grid_le_maxFinite _ (by norm_num))

/-- A representable integer converts to float64 exactly. -/
theorem ofInt_representable (v : Int) (hr : Representable v) (h : v.natAbs ≤ 2 ^ 63) :
    F64.ofInt v = F64.fin (v * grid) := by
  have := roundQ_mul_exact (v * grid) 1 Nat.one_pos (representable_dvd v hr)
    (natAbs_mul_grid_le v h)
  unfold F64.ofInt
  simpa using this

theorem representable_neg (v : Int) (h : Representable v) : Representable (-v) := by
  obtain ⟨m, s, hm, hv⟩ := h
  exact ⟨m, s, hm, by rw [Int.natAbs_neg]; exact hv⟩

/-- The conversion `float64(v)` of an int64 is an integer `w` of at most 53
significant bits, within relative error `2^-53` of `v`. -/
theorem ofInt_general (v : Int) (h : v.natAbs ≤ 2 ^ 63) :
    ∃ w : Int, F64.ofInt v = F64.fin (w * grid) ∧ Representable w ∧
      2 ^ 53 * |w - v| ≤ |v| ∧ w.natAbs ≤ 2 ^ 63 := by
  rcases le_or_lt v.natAbs (2 ^ 53) with hs | hl
  · refine ⟨v, ofInt_exact v hs, representable_of_le v hs, ?_, h⟩
    simp
  · have hgp : 0 < grid := by unfold grid; positivity
    obtain ⟨m, t, hm, hrm, hb⟩ := roundMag_form (v.natAbs * grid) 1 Nat.one_pos
    obtain ⟨T, hbT, n1, n2, _⟩ := roundMag_near (v.natAbs * grid) 1 Nat.one_pos
    have hbig : 2 ^ 53 * grid < v.natAbs * grid := Nat.mul_lt_mul_of_pos_right hl hgp
    have hg53 : 2 ^ 53 * grid = 2 ^ (1074 + 53) := by
      unfold grid; rw [← pow_add]
    -- the exponent of the binade exceeds that of the grid
    have ht : 1074 < t := by
      rcases hb with ⟨h0, hlt⟩ | ⟨_, _, hlt⟩
      · have : 2 ^ 53 ≤ 2 ^ 53 * grid := Nat.le_mul_of_pos_right _ hgp
        omega
      · rw [mul_one] at hlt
        by_contra hcon
        have key : ∀ a b : Nat, a ≤ b → 2 ^ a ≤ 2 ^ b :=
          fun a b hab => Nat.pow_le_pow_right (by norm_num) hab
        have := key (t + 53) (1074 + 53) (by omega)
        omega
    have hmax : roundMag (v.natAbs * grid) 1 ≤ 2 ^ 63 * grid :=
      roundMag_le_of_le _ _ 1 Nat.one_pos
        (by
          have := dvd_of_le_two_pow 1 (63 + 1074) (by norm_num)
          have e : 1 * 2 ^ (63 + 1074) = 2 ^ 63 * grid := by
            unfold grid; rw [one_mul, pow_add]
          rw [e] at this
          exact this)
        (by rw [mul_one]; exact Nat.mul_le_mul_right _ h)
    have hsplit : m * 2 ^ t = (m * 2 ^ (t - 1074)) * grid := by
      unfold grid
      rw [mul_assoc, ← pow_add]
      congr 2
      omega
    have hw63 : m * 2 ^ (t - 1074) ≤ 2 ^ 63 := by
      rw [hrm, hsplit] at hmax
      exact Nat.le_of_mul_le_mul_right hmax hgp
    have hofInt : F64.ofInt v = F64.fin (roundInt (v * grid) 1) := by
      unfold F64.ofInt
      apply roundQ_eq_fin
      rw [Int.natAbs_mul, Int.natAbs_ofNat]
      exact le_trans hmax (mul_grid_le_maxFinite _ (by norm_num))
    have hTt : T = t := by
      rcases hb with ⟨h0, _⟩ | ⟨_, hb1, hb2⟩
      · omega
      · rcases hbT with ⟨hT0, hT1⟩ | ⟨_, hT1, hT2⟩
        · have : 2 ^ 53 ≤ 2 ^ 53 * grid := Nat.le_mul_of_pos_right _ hgp
          omega
        · rw [mul_one] at hb1 hb2 hT1 hT2
          have l1 : 2 ^ (t + 52) < 2 ^ (T + 53) := lt_of_le_of_lt hb1 hT2
          have l2 : 2 ^ (T + 52) < 2 ^ (t + 53) := lt_of_le_of_lt hT1 hb2
          have := (Nat.pow_lt_pow_iff_right (by norm_num : 1 < 2)).1 l1
          have := (Nat.pow_lt_pow_iff_right (by norm_num : 1 < 2)).1 l2
          omega
    subst hTt
    have hlow : 2 ^ (T + 52) ≤ v.natAbs * grid := by
      rcases hb with ⟨h0, _⟩ | ⟨_, hb1, _⟩
      · omega
      · rw [mul_one] at hb1; exact hb1
    -- the error, in units of the grid
    have hT : 2 ^ T = 2 ^ (T - 1074) * grid := by
      unfold grid; rw [← pow_add]; congr 1; omega
    have hT52 : 2 ^ (T + 52) = 2 ^ 52 * 2 ^ (T - 1074) * grid := by
      unfold grid; rw [← pow_add, ← pow_add]; congr 1; omega
    rw [one_mul, hrm, hsplit, hT] at n1 n2
    rw [hT52] at hlow
    have hlow2 : 2 ^ 52 * 2 ^ (T - 1074) ≤ v.natAbs := Nat.le_of_mul_le_mul_right hlow hgp
    have m1 : 2 * v.natAbs ≤ 2 * (m * 2 ^ (T - 1074)) + 2 ^ (T - 1074) := by
      have : (2 * v.natAbs) * grid ≤ (2 * (m * 2 ^ (T - 1074)) + 2 ^ (T - 1074)) * grid := by
        rw [add_mul]; linarith
      exact Nat.le_of_mul_le_mul_right this hgp
    have m2 : 2 * (m * 2 ^ (T - 1074)) ≤ 2 * v.natAbs + 2 ^ (T - 1074) := by
      have : (2 * (m * 2 ^ (T - 1074))) * grid ≤ (2 * v.natAbs + 2 ^ (T - 1074)) * grid := by
        rw [add_mul]; linarith
      exact Nat.le_of_mul_le_mul_right this hgp
    generalize hW : m * 2 ^ (T - 1074) = W at *
    have hrepW : ∀ z : Int, z.natAbs = W → Representable z := fun z hz =>
      ⟨m, T - 1074, hm, by rw [hz, hW]⟩
    generalize 2 ^ (T - 1074) = U at *
    have hround : roundMag (v * (grid : Int)).natAbs 1 = W * grid := by
      rw [Int.natAbs_mul, Int.natAbs_ofNat, hrm, hsplit]
    by_cases hv : v < 0
    · refine ⟨-(W : Int), ?_, hrepW _ (by simp), ?_, by simpa using hw63⟩
      · rw [hofInt]
        unfold roundInt
        rw [if_pos (mul_neg_of_neg_of_pos hv grid_pos), hround]
        push_cast; ring_nf
      · rw [abs_of_neg hv]
        rcases abs_cases (-(W : Int) - v) with ⟨ha, _⟩ | ⟨ha, _⟩ <;> rw [ha] <;> omega
    · refine ⟨(W : Int), ?_, hrepW _ (by simp), ?_, by simpa using hw63⟩
      · rw [hofInt]
        unfold roundInt
        rw [if_neg (by
          have := mul_nonneg (not_lt.1 hv) grid_pos.le
          omega), hround]
        push_cast; ring_nf
      · rw [abs_of_nonneg (not_lt.1 hv)]
        rcases abs_cases ((W : Int) - v) with ⟨ha, _⟩ | ⟨ha, _⟩ <;> rw [ha] <;> omega


theorem toInt64_mul_grid (w v : Int) (h : (F64.fin (w * grid)).toInt64 = some v) : w = v := by
  have hg := grid_pos
  unfold F64.toInt64 at h
  simp only [] at h
  rw [Int.mul_tdiv_cancel _ (by omega)] at h
  split at h
  · exact Option.some.inj h
  · exact absurd h (by simp)

/-- Halving a representable integer estimate and truncating. -/
theorem toInt64_half_representable (w : Int) (hr : Representable w) (hw : w.natAbs ≤ 2 ^ 63) :
    (F64.div (F64.fin (w * grid)) (F64.ofInt 2)).toInt64 = some (w.tdiv 2) := by
  rcases le_or_lt w.natAbs (2 ^ 53) with hs | hl
  · rw [div_two_exact w hs]
    exact toInt64_half w (by omega) (by omega)
  · obtain ⟨m, s, hm, hv⟩ := hr
    have hs : s ≠ 0 := by
      rintro rfl
      rw [pow_zero, mul_one] at hv
      omega
    obtain ⟨s2, rfl⟩ := Nat.exists_eq_succ_of_ne_zero hs
    have hv2 : w.natAbs = 2 * (m * 2 ^ s2) := by rw [hv, pow_succ]; ring
    have hdvd : (2 : Int) ∣ w := by
      have : (2 : Nat) ∣ w.natAbs := ⟨_, hv2⟩
      exact Int.natCast_dvd.2 this
    obtain ⟨u, hu⟩ := hdvd
    have hun : u.natAbs = m * 2 ^ s2 := by
      have : w.natAbs = 2 * u.natAbs := by rw [hu, Int.natAbs_mul]; rfl
      omega
    have hru : Representable u := ⟨m, s2, hm, hun⟩
    have e : w * (grid : Int) = 2 * (u * grid) := by rw [hu]; ring
    rw [e, div_two_of_double _ (representable_dvd u hru) (natAbs_mul_grid_le u (by omega))]
    have : w.tdiv 2 = u := by
      rw [hu]; exact Int.mul_tdiv_cancel_left _ (by norm_num)
    rw [this]
    exact toInt64_ofInt u (by omega) (by omega)

/-- C1, amended. For every int64 sample `v`, on an estimator that has recorded
no sample yet (`N = 0`, as made by `NewRTT`), whatever `Alpha` and the
previous `Est` were: `AddSample(v)` sets `Est` to exactly `v` if and only if
`v` is a float64 value (magnitude `m * 2^s` with `m <= 2^53`); for such a `v`
`GetEstimate()` returns exactly `v`; for any other `v`, `GetEstimate()`
differs from `v` wherever the conversion `int64(Est)` is defined; every `v`
with `|v| <= 2^53` is a float64 value. -/
theorem AddSample_first_sample {S : Type} (ops : SdOps S) (r : RTT S) (v : Int)
    (hN : r.N = 0) (h1 : -2 ^ 63 ≤ v) (h2 : v < 2 ^ 63) :
    ((AddSample ops r v).Est = F64.fin (v * grid) ↔ Representable v) ∧
      (Representable v → GetEstimate (AddSample ops r v) = some v) ∧
      (∀ g : Int, GetEstimate (AddSample ops r v) = some g → (g = v ↔ Representable v)) ∧
      (-2 ^ 53 ≤ v → v ≤ 2 ^ 53 → Representable v) := by
  have hv := natAbs_le_of_int64 v h1 h2
  have hg := grid_pos
  rw [AddSample_first_fields ops r v hN]
  obtain ⟨w, hw1, hw2, _, _⟩ := ofInt_general v hv
  have hwv : Representable v → w = v := fun hr => by
    have := ofInt_representable v hr hv
    rw [hw1] at this
    exact Int.eq_of_mul_eq_mul_right (by omega) (F64.fin.inj this)
  refine ⟨⟨?_, ?_⟩, ?_, ?_, fun a b => representable_of_le v (by omega)⟩
  · intro h
    have h3 : F64.ofInt v = F64.fin (v * grid) := h
    rw [hw1] at h3
    have h4 := F64.fin.inj h3
    have : w = v := Int.eq_of_mul_eq_mul_right (by omega) h4
    rw [← this]; exact hw2
  · intro hr
    exact ofInt_representable v hr hv
  · intro hr
    show (F64.ofInt v).toInt64 = some v
    rw [ofInt_representable v hr hv]
    exact toInt64_ofInt v h1 h2
  · intro g h
    have h3 : (F64.ofInt v).toInt64 = some g := h
    rw [hw1] at h3
    have hwg := toInt64_mul_grid w g h3
    constructor
    · intro hgv
      rw [← hgv, ← hwg]; exact hw2
    · intro hr
      rw [← hwg]; exact hwv hr

/-- C1 at the sample 1500 ns on the estimator made by `NewRTT`. -/
theorem AddSample_first_sample_witness :
    ((AddSample logOps (NewRTT logOps) 1500).Est = F64.fin (1500 * grid) ↔ Representable 1500) ∧
      (Representable 1500 → GetEstimate (AddSample logOps (NewRTT logOps) 1500) = some 1500) ∧
      (∀ g : Int, GetEstimate (AddSample logOps (NewRTT logOps) 1500) = some g →
        (g = 1500 ↔ Representable 1500)) ∧
      (-2 ^ 53 ≤ (1500 : Int) → (1500 : Int) ≤ 2 ^ 53 → Representable 1500) :=
  AddSample_first_sample logOps (NewRTT logOps) 1500 rfl (by decide) (by decide)

/-- C7, amended. For every int64 sample `v`, after exactly one `AddSample(v)`
on an estimator that had recorded no sample (`N = 0`, as made by `NewRTT`):
`Est` is an integer `w` of at most 53 significant bits, within relative error
`2^-53` of `v` and equal to `v` whenever `v` is a float64 value (in
particular when `|v| <= 2^53`), and `GetSd()` returns `w / 2` with the
fraction discarded: half the estimate, not the 10 ms default and not the
tracker's value. -/
theorem GetSd_one_sample {S : Type} (ops : SdOps S) (r : RTT S) (v : Int)
    (hN : r.N = 0) (h1 : -2 ^ 63 ≤ v) (h2 : v < 2 ^ 63) :
    ∃ w : Int, (AddSample ops r v).Est = F64.fin (w * grid) ∧
      GetSd ops (AddSample ops r v) = some (w.tdiv 2) ∧
      Representable w ∧ 2 ^ 53 * |w - v| ≤ |v| ∧ (Representable v → w = v) := by
  have hv := natAbs_le_of_int64 v h1 h2
  have hg := grid_pos
  obtain ⟨w, hw1, hw2, hw3, hw4⟩ := ofInt_general v hv
  rw [AddSample_first_fields ops r v hN]
  refine ⟨w, hw1, ?_, hw2, hw3, ?_⟩
  · unfold GetSd
    simp only [one_ne_zero, if_false, if_true]
    rw [hw1]
    exact toInt64_half_representable w hw2 hw4
  · intro hr
    have := ofInt_representable v hr hv
    rw [hw1] at this
    exact Int.eq_of_mul_eq_mul_right (by omega) (F64.fin.inj this)

/-- C7 at the sample 1501 ns on the estimator made by `NewRTT`. -/
theorem GetSd_one_sample_witness :
    ∃ w : Int, (AddSample logOps (NewRTT logOps) 1501).Est = F64.fin (w * grid) ∧
      GetSd logOps (AddSample logOps (NewRTT logOps) 1501) = some (w.tdiv 2) ∧
      Representable w ∧ 2 ^ 53 * |w - 1501| ≤ |(1501 : Int)| ∧ (Representable 1501 → w = 1501) :=
  GetSd_one_sample logOps (NewRTT logOps) 1501 rfl (by decide) (by decide)

theorem AddSample_later_est {S : Type} (ops : SdOps S) (r : RTT S) (v : Int)
    (h1 : 1 ≤ r.N) (h2 : r.N ≤ 2 ^ 63 - 1) :
    (AddSample ops r v).Est =
      F64.add (F64.mul r.Alpha (F64.ofInt v)) (F64.mul (F64.sub (F64.ofInt 1) r.Alpha) r.Est) ∧
    (AddSample ops r v).N = if r.N = 2 ^ 63 - 1 then -2 ^ 63 else r.N + 1 := by
  have hw : wrap64 (r.N + 1) = if r.N = 2 ^ 63 - 1 then -2 ^ 63 else r.N + 1 := by
    unfold wrap64
    split <;> omega
  have hne : ¬ wrap64 (r.N + 1) = 1 := by
    rw [hw]; split <;> omega
  refine ⟨?_, ?_⟩
  · simp only [AddSample, if_neg hne]
  · rw [AddSample_N, hw]

/-- C2, amended. On every estimator that has recorded at least one sample
(`1 <= N <= MaxInt64`), `AddSample(v)` sets `Est` to the float64 value of
`Alpha*v + (1 - Alpha)*Est`, each operation rounded to nearest, and leaves
`Alpha` unchanged; `N` increases by exactly one, except that `MaxInt64` wraps
to `MinInt64`.  `NewRTT` sets `Alpha` to the float64 nearest to `0.1`,
`3602879701896397 * 2^-55`; with that `Alpha`, a sample of magnitude at most
`2^46` ns and a finite estimate `e` of magnitude at most `2^47` ns, the new
`Est` is finite and within `1/25` ns of the real number `(v + 9 e) / 10`. -/
theorem AddSample_subsequent {S : Type} (ops : SdOps S) (r : RTT S) (v : Int)
    (h1 : 1 ≤ r.N) (h2 : r.N ≤ 2 ^ 63 - 1) :
    (AddSample ops r v).Est =
        F64.add (F64.mul r.Alpha (F64.ofInt v)) (F64.mul (F64.sub (F64.ofInt 1) r.Alpha) r.Est) ∧
      (AddSample ops r v).Alpha = r.Alpha ∧
      (AddSample ops r v).N = (if r.N = 2 ^ 63 - 1 then -2 ^ 63 else r.N + 1) ∧
      (NewRTT ops).Alpha = F64.fin ((3602879701896397 * 2 ^ 1019 : Nat) : Int) ∧
      (∀ e : Int, r.Alpha = (NewRTT ops).Alpha → r.Est = F64.fin e →
        v.natAbs ≤ 2 ^ 46 → e.natAbs ≤ 2 ^ 47 * grid →
        ∃ k : Int, (AddSample ops r v).Est = F64.fin k ∧
          5 * |10 * k - (v * grid + 9 * e)| ≤ 2 * (grid : Int)) := by
  obtain ⟨a1, a2⟩ := AddSample_later_est ops r v h1 h2
  refine ⟨a1, AddSample_Alpha ops r v, a2, alpha_eq, ?_⟩
  intro e hA hE hv he
  have hA2 : r.Alpha = F64.ofRat 1 10 := hA
  refine ⟨ewmaInt (v * grid) e, ?_, ?_⟩
  · rw [a1, hA2, hE]
    exact smooth_eq v e hv he
  · apply ewmaInt_tenth _ _ _ he
    rw [Int.natAbs_mul, Int.natAbs_ofNat]
    exact Nat.mul_le_mul_right _ hv

/-- C2 at the sample 7 ns on an estimator holding one sample of 5 ns. -/
theorem AddSample_subsequent_witness :
    (AddSample logOps warmState 7).Est =
        F64.add (F64.mul warmState.Alpha (F64.ofInt 7))
          (F64.mul (F64.sub (F64.ofInt 1) warmState.Alpha) warmState.Est) ∧
      (AddSample logOps warmState 7).Alpha = warmState.Alpha ∧
      (AddSample logOps warmState 7).N =
        (if warmState.N = 2 ^ 63 - 1 then -2 ^ 63 else warmState.N + 1) ∧
      (NewRTT logOps).Alpha = F64.fin ((3602879701896397 * 2 ^ 1019 : Nat) : Int) ∧
      (∀ e : Int, warmState.Alpha = (NewRTT logOps).Alpha → warmState.Est = F64.fin e →
        Int.natAbs 7 ≤ 2 ^ 46 → e.natAbs ≤ 2 ^ 47 * grid →
        ∃ k : Int, (AddSample logOps warmState 7).Est = F64.fin k ∧
          5 * |10 * k - (7 * grid + 9 * e)| ≤ 2 * (grid : Int)) :=
  AddSample_subsequent logOps warmState 7 (by decide) (by decide)

/-- C2 fails at the end of the counter's range: from `N = MaxInt64` the
increment wraps to `MinInt64`. -/
theorem AddSample_counter_wraps :
    (AddSample logOps { warmState with N := 9223372036854775807 } 7).N = -9223372036854775808 ∧
      (AddSample logOps { warmState with N := 9223372036854775807 } 7).N ≠
        9223372036854775807 + 1 := by
  have h : (AddSample logOps { warmState with N := 9223372036854775807 } 7).N
      = -9223372036854775808 := by
    rw [AddSample_N]
    decide
  rw [h]
  exact ⟨rfl, by decide⟩


/-! ## Retry scheduler: order theory of the binary heap -/

theorem swapF_at_left {K : Type} (f : Nat → K) (i j : Nat) : swapF f i j i = f j := by
  unfold swapF
  by_cases h : i = j
  · simp [h]
  · simp [h]

theorem swapF_at_right {K : Type} (f : Nat → K) (i j : Nat) : swapF f i j j = f i := by
  simp [swapF]

theorem swapF_other {K : Type} (f : Nat → K) (i j k : Nat) (hi : k ≠ i) (hj : k ≠ j) :
    swapF f i j k = f k := by
  simp [swapF, hi, hj]

/-- When `i` is at most its children, the state of `down` is a heap. -/
theorem downInv_done {K : Type} [LinearOrder K] {f : Nat → K} {lo n i : Nat}
    (h : DownInv f lo n i) (hc : ∀ c, 0 < c → c < n → (c - 1) / 2 = i → f i ≤ f c) :
    HeapRange f lo n := by
  intro c hc0 hcn hlo
  by_cases hp : (c - 1) / 2 = i
  · rw [hp]; exact hc c hc0 hcn hp
  · exact h.1 c hc0 hcn hlo hp

/-- One iteration of `down`: exchanging `i` with its least child `j`. -/
theorem downInv_step {K : Type} [LinearOrder K] {f : Nat → K} {lo n i j : Nat}
    (h : DownInv f lo n i) (hlo : lo ≤ i) (hj0 : 0 < j) (hjn : j < n) (hji : (j - 1) / 2 = i)
    (hlt : f j < f i) (hmin : ∀ c, 0 < c → c < n → (c - 1) / 2 = i → f j ≤ f c) :
    DownInv (swapF f i j) lo n j := by
  have hij : i ≠ j := by omega
  constructor
  · intro c hc0 hcn hclo hcp
    by_cases hpi : (c - 1) / 2 = i
    · rw [hpi, swapF_at_left]
      by_cases hcj : c = j
      · rw [hcj, swapF_at_right]; exact le_of_lt hlt
      · rw [swapF_other f i j c (by omega) hcj]; exact hmin c hc0 hcn hpi
    · rw [swapF_other f i j _ hpi hcp]
      by_cases hci : c = i
      · subst hci
        rw [swapF_at_left]
        exact h.2 j hj0 hjn hji hc0 hclo
      · have hcj : c ≠ j := by
          intro hcj; rw [hcj] at hpi; exact hpi hji
        rw [swapF_other f i j c hci hcj]
        exact h.1 c hc0 hcn hclo hpi
  · intro c hc0 hcn hcp _ _
    have hci : c ≠ i := by omega
    have hcj : c ≠ j := by omega
    rw [hji, swapF_at_left, swapF_other f i j c hci hcj]
    have := h.1 c hc0 hcn (by omega) (by omega)
    rw [hcp] at this; exact this

/-- When `j` is the root or at least its parent, the state of `up` is a heap. -/
theorem upInv_done {K : Type} [LinearOrder K] {f : Nat → K} {n j : Nat}
    (h : UpInv f n j) (hj : j = 0 ∨ f ((j - 1) / 2) ≤ f j) : HeapRange f 0 n := by
  intro c hc0 hcn _
  by_cases hcj : c = j
  · rcases hj with h0 | hle
    · omega
    · rw [hcj]; exact hle
  · exact h.1 c hc0 hcn hcj

/-- One iteration of `up`: exchanging `j` with its parent. -/
theorem upInv_step {K : Type} [LinearOrder K] {f : Nat → K} {n j : Nat}
    (h : UpInv f n j) (hj0 : 0 < j) (hjn : j < n) (hlt : f j < f ((j - 1) / 2)) :
    UpInv (swapF f ((j - 1) / 2) j) n ((j - 1) / 2) := by
  have hij : (j - 1) / 2 ≠ j := by omega
  constructor
  · intro c hc0 hcn hci
    by_cases hcj : c = j
    · rw [hcj, swapF_at_right, swapF_at_left]; exact le_of_lt hlt
    · rw [swapF_other f _ j c hci hcj]
      by_cases hpi : (c - 1) / 2 = (j - 1) / 2
      · rw [hpi, swapF_at_left]
        have := h.1 c hc0 hcn hcj
        rw [hpi] at this
        exact le_trans (le_of_lt hlt) this
      · by_cases hpj : (c - 1) / 2 = j
        · rw [hpj, swapF_at_right]
          exact h.2 c hc0 hcn hpj hj0
        · rw [swapF_other f _ j _ hpi hpj]
          exact h.1 c hc0 hcn hcj
  · intro c hc0 hcn hcp hi0
    have hpp : (((j - 1) / 2 - 1) / 2) ≠ (j - 1) / 2 := by omega
    have hppj : (((j - 1) / 2 - 1) / 2) ≠ j := by omega
    rw [swapF_other f _ j _ hpp hppj]
    have hpar := h.1 ((j - 1) / 2) hi0 (by omega) hij
    by_cases hcj : c = j
    · rw [hcj, swapF_at_right]; exact hpar
    · have hci : c ≠ (j - 1) / 2 := by omega
      rw [swapF_other f _ j c hci hcj]
      have := h.1 c hc0 hcn hcj
      rw [hcp] at this
      exact le_trans hpar this

/-- In a heap the root carries a least key. -/
theorem heapRange_root_le {K : Type} [LinearOrder K] {f : Nat → K} {n : Nat}
    (h : HeapRange f 0 n) : ∀ c, c < n → f 0 ≤ f c := by
  intro c
  induction c using Nat.strong_induction_on with
  | _ c ih =>
    intro hcn
    rcases Nat.eq_zero_or_pos c with h0 | hpos
    · rw [h0]
    · exact le_trans (ih ((c - 1) / 2) (by omega) (by omega)) (h c hpos hcn (Nat.zero_le _))

/-! ### The queue operations on keys and slots -/

theorem lessSlot_iff (a b : TxqSlot) : lessSlot a b = true ↔ key a < key b := by
  unfold lessSlot key
  by_cases ha : a.RetryDeadline = 0
  · simp [ha]
  · by_cases hb : b.RetryDeadline = 0
    · simp [ha, hb, WithTop.coe_lt_top]
    · simp [ha, hb, WithTop.coe_lt_coe]

theorem Len_eq (pq : PriorityQueue) : Len pq = pq.length := rfl

theorem Less_iff (pq : PriorityQueue) (i j : Nat) (hi : i < pq.length) (hj : j < pq.length) :
    Less pq i j = true ↔ keyAt pq i < keyAt pq j := by
  unfold Less keyAt
  rw [List.getElem?_eq_getElem hi, List.getElem?_eq_getElem hj]
  exact lessSlot_iff _ _

theorem Less_false_iff (pq : PriorityQueue) (i j : Nat) (hi : i < pq.length) (hj : j < pq.length) :
    Less pq i j = false ↔ keyAt pq j ≤ keyAt pq i := by
  rw [← not_lt, ← Less_iff pq i j hi hj]; simp

theorem Swap_eq (pq : PriorityQueue) (i j : Nat) (hi : i < pq.length) (hj : j < pq.length) :
    Swap pq i j = (pq.set i { pq[j] with index := i }).set j { pq[i] with index := j } := by
  unfold Swap
  rw [List.getElem?_eq_getElem hi, List.getElem?_eq_getElem hj]

theorem length_Swap (pq : PriorityQueue) (i j : Nat) : (Swap pq i j).length = pq.length := by
  unfold Swap
  split <;> simp

theorem getElem?_Swap (pq : PriorityQueue) (i j k : Nat) (hi : i < pq.length)
    (hj : j < pq.length) :
    (Swap pq i j)[k]? =
      if k = j then some { pq[i] with index := j }
      else if k = i then some { pq[j] with index := i } else pq[k]? := by
  rw [Swap_eq pq i j hi hj, List.getElem?_set, List.getElem?_set]
  by_cases hkj : k = j
  · subst hkj; simp [hj]
  · have hjk : ¬ j = k := fun h => hkj h.symm
    rw [if_neg hjk, if_neg hkj]
    by_cases hki : k = i
    · subst hki; simp [hi]
    · have hik : ¬ i = k := fun h => hki h.symm
      rw [if_neg hik, if_neg hki]

theorem keyAt_Swap (pq : PriorityQueue) (i j : Nat) (hi : i < pq.length) (hj : j < pq.length) :
    keyAt (Swap pq i j) = swapF (keyAt pq) i j := by
  funext k
  unfold keyAt swapF
  rw [getElem?_Swap pq i j k hi hj]
  by_cases hkj : k = j
  · simp [hkj, List.getElem?_eq_getElem hi]
  · by_cases hki : k = i
    · have hij : ¬ i = j := fun h => hkj (hki.trans h)
      simp [hki, hij, List.getElem?_eq_getElem hj]
    · simp [hkj, hki]

theorem slots_Swap_perm (pq : PriorityQueue) (i j : Nat) : (slots (Swap pq i j)).Perm (slots pq) := by
  by_cases hi : i < pq.length
  · by_cases hj : j < pq.length
    · rw [Swap_eq pq i j hi hj]
      unfold slots
      rw [List.map_set, List.map_set]
      rw [List.perm_iff_count]
      intro a
      have hi2 : i < (List.map (fun e => e.slot) pq).length := by simpa using hi
      have hj2 : j < ((List.map (fun e => e.slot) pq).set i pq[j].slot).length := by simpa using hj
      rw [List.count_set _ _ _ _ hj2, List.count_set _ _ _ _ hi2]
      simp only [List.getElem_set, List.getElem_map]
      have c1 := List.boole_getElem_le_count (a := a) (List.map (fun e => e.slot) pq) i hi2
      have hj3 : j < (List.map (fun e => e.slot) pq).length := by simpa using hj
      have c2 := List.boole_getElem_le_count (a := a) (List.map (fun e => e.slot) pq) j hj3
      simp only [List.getElem_map] at c1 c2
      by_cases hij : i = j
      · subst hij; simp only [if_true]; omega
      · simp only [if_neg hij]
        omega
    · unfold Swap
      rw [List.getElem?_eq_none (by omega : pq.length ≤ j)]
      cases pq[i]? <;> exact List.Perm.refl _
  · unfold Swap
    rw [List.getElem?_eq_none (by omega : pq.length ≤ i)]


/-! ### `heap.down` -/

theorem downLoop_succ_eq (fuel : Nat) (pq : PriorityQueue) (i n : Nat) :
    downLoop (fuel + 1) pq i n =
      if 2 * i + 1 ≥ n then (pq, i)
      else
        if Less pq (if 2 * i + 1 + 1 < n ∧ Less pq (2 * i + 1 + 1) (2 * i + 1) = true
            then 2 * i + 1 + 1 else 2 * i + 1) i = false then (pq, i)
        else downLoop fuel
          (Swap pq i (if 2 * i + 1 + 1 < n ∧ Less pq (2 * i + 1 + 1) (2 * i + 1) = true
            then 2 * i + 1 + 1 else 2 * i + 1))
          (if 2 * i + 1 + 1 < n ∧ Less pq (2 * i + 1 + 1) (2 * i + 1) = true
            then 2 * i + 1 + 1 else 2 * i + 1) n := rfl

/-- One iteration of `down` either stops or exchanges `i` with a child. -/
theorem downLoop_succ (fuel : Nat) (pq : PriorityQueue) (i n : Nat) :
    downLoop (fuel + 1) pq i n = (pq, i) ∨
      ∃ j, i < j ∧ j < n ∧ (j - 1) / 2 = i ∧
        downLoop (fuel + 1) pq i n = downLoop fuel (Swap pq i j) j n := by
  rw [downLoop_succ_eq]
  by_cases hj1 : 2 * i + 1 ≥ n
  · left; rw [if_pos hj1]
  · rw [if_neg hj1]
    by_cases hsel : 2 * i + 1 + 1 < n ∧ Less pq (2 * i + 1 + 1) (2 * i + 1) = true
    · rw [if_pos hsel]
      by_cases hl : Less pq (2 * i + 1 + 1) i = false
      · left; rw [if_pos hl]
      · right; rw [if_neg hl]
        exact ⟨2 * i + 1 + 1, by omega, hsel.1, by omega, rfl⟩
    · rw [if_neg hsel]
      by_cases hl : Less pq (2 * i + 1) i = false
      · left; rw [if_pos hl]
      · right; rw [if_neg hl]
        exact ⟨2 * i + 1, by omega, by omega, by omega, rfl⟩

theorem length_downLoop (n : Nat) : ∀ (fuel : Nat) (pq : PriorityQueue) (i : Nat),
    (downLoop fuel pq i n).1.length = pq.length := by
  intro fuel
  induction fuel with
  | zero => intro pq i; rfl
  | succ fuel ih =>
    intro pq i
    rcases downLoop_succ fuel pq i n with h | ⟨j, _, _, _, h⟩
    · rw [h]
    · rw [h, ih, length_Swap]

theorem slots_downLoop_perm (n : Nat) : ∀ (fuel : Nat) (pq : PriorityQueue) (i : Nat),
    (slots (downLoop fuel pq i n).1).Perm (slots pq) := by
  intro fuel
  induction fuel with
  | zero => intro pq i; exact List.Perm.refl _
  | succ fuel ih =>
    intro pq i
    rcases downLoop_succ fuel pq i n with h | ⟨j, _, _, _, h⟩
    · rw [h]
    · rw [h]; exact (ih _ _).trans (slots_Swap_perm _ _ _)

/-- The function `down` does not touch the positions from `n` on. -/
theorem getElem?_downLoop_ge (n : Nat) : ∀ (fuel : Nat) (pq : PriorityQueue) (i k : Nat),
    n ≤ pq.length → n ≤ k → (downLoop fuel pq i n).1[k]? = pq[k]? := by
  intro fuel
  induction fuel with
  | zero => intro pq i k _ _; rfl
  | succ fuel ih =>
    intro pq i k hn hk
    rcases downLoop_succ fuel pq i n with h | ⟨j, hij, hjn, _, h⟩
    · rw [h]
    · rw [h, ih _ _ _ (by rw [length_Swap]; exact hn) hk,
        getElem?_Swap pq _ _ k (by omega) (by omega), if_neg (by omega), if_neg (by omega)]

/-- The function `down` from a state satisfying its invariant ends in a heap. -/
theorem downLoop_heap (lo n : Nat) : ∀ (fuel : Nat) (pq : PriorityQueue) (i : Nat),
    n ≤ pq.length → n ≤ fuel + i → lo ≤ i → DownInv (keyAt pq) lo n i →
    HeapRange (keyAt (downLoop fuel pq i n).1) lo n := by
  intro fuel
  induction fuel with
  | zero =>
    intro pq i _ hfuel _ hinv
    exact downInv_done hinv (fun c _ hcn hp => by omega)
  | succ fuel ih =>
    intro pq i hn hfuel hlo hinv
    rw [downLoop_succ_eq]
    split
    · exact downInv_done hinv (fun c _ hcn hp => by omega)
    · rename_i hj1
      have hj1n : 2 * i + 1 < n := by omega
      by_cases hsel : 2 * i + 1 + 1 < n ∧ Less pq (2 * i + 1 + 1) (2 * i + 1) = true
      · rw [if_pos hsel]
        have hlt21 : keyAt pq (2 * i + 1 + 1) < keyAt pq (2 * i + 1) :=
          (Less_iff pq _ _ (by omega) (by omega)).1 hsel.2
        have hmin : ∀ c, 0 < c → c < n → (c - 1) / 2 = i →
            keyAt pq (2 * i + 1 + 1) ≤ keyAt pq c := by
          intro c hc0 hcn hp
          have : c = 2 * i + 1 ∨ c = 2 * i + 1 + 1 := by omega
          rcases this with h | h
          · rw [h]; exact le_of_lt hlt21
          · rw [h]
        split
        · rename_i hnl
          have hle := (Less_false_iff pq _ _ (by omega) (by omega)).1 hnl
          exact downInv_done hinv (fun c hc0 hcn hp => le_trans hle (hmin c hc0 hcn hp))
        · rename_i hl
          have hl2 : Less pq (2 * i + 1 + 1) i = true := by simpa using hl
          have hlt := (Less_iff pq _ _ (by omega) (by omega)).1 hl2
          have hstep := downInv_step hinv hlo (by omega) hsel.1 (by omega) hlt hmin
          rw [← keyAt_Swap pq i _ (by omega) (by omega)] at hstep
          exact ih _ _ (by rw [length_Swap]; exact hn) (by omega) (by omega) hstep
      · rw [if_neg hsel]
        have hmin : ∀ c, 0 < c → c < n → (c - 1) / 2 = i →
            keyAt pq (2 * i + 1) ≤ keyAt pq c := by
          intro c hc0 hcn hp
          have : c = 2 * i + 1 ∨ c = 2 * i + 1 + 1 := by omega
          rcases this with h | h
          · rw [h]
          · rw [h]
            have hlt : 2 * i + 1 + 1 < n := by omega
            have : ¬ Less pq (2 * i + 1 + 1) (2 * i + 1) = true := fun hL => hsel ⟨hlt, hL⟩
            exact (Less_false_iff pq _ _ (by omega) (by omega)).1 (by simpa using this)
        split
        · rename_i hnl
          have hle := (Less_false_iff pq _ _ (by omega) (by omega)).1 hnl
          exact downInv_done hinv (fun c hc0 hcn hp => le_trans hle (hmin c hc0 hcn hp))
        · rename_i hl
          have hl2 : Less pq (2 * i + 1) i = true := by simpa using hl
          have hlt := (Less_iff pq _ _ (by omega) (by omega)).1 hl2
          have hstep := downInv_step hinv hlo (by omega) hj1n (by omega) hlt hmin
          rw [← keyAt_Swap pq i _ (by omega) (by omega)] at hstep
          exact ih _ _ (by rw [length_Swap]; exact hn) (by omega) (by omega) hstep


/-- More iterations than `down` needs do not change its result. -/
theorem downLoop_fuel (n : Nat) : ∀ (f1 f2 : Nat) (pq : PriorityQueue) (i : Nat),
    n ≤ f1 + i → n ≤ f2 + i → downLoop f1 pq i n = downLoop f2 pq i n := by
  intro f1
  induction f1 with
  | zero =>
    intro f2 pq i h1 _
    cases f2 with
    | zero => rfl
    | succ f2 =>
      rw [downLoop_succ_eq, if_pos (by omega)]; rfl
  | succ f1 ih =>
    intro f2 pq i h1 h2
    cases f2 with
    | zero =>
      rw [downLoop_succ_eq, if_pos (by omega)]; rfl
    | succ f2 =>
      rw [downLoop_succ_eq, downLoop_succ_eq]
      by_cases hj1 : 2 * i + 1 ≥ n
      · rw [if_pos hj1, if_pos hj1]
      · rw [if_neg hj1, if_neg hj1]
        generalize hj : (if 2 * i + 1 + 1 < n ∧ Less pq (2 * i + 1 + 1) (2 * i + 1) = true
          then 2 * i + 1 + 1 else 2 * i + 1) = j
        have hij : i < j := by rw [← hj]; split <;> omega
        by_cases hl : Less pq j i = false
        · rw [if_pos hl, if_pos hl]
        · rw [if_neg hl, if_neg hl]; exact ih _ _ _ (by omega) (by omega)

/-! ### `heap.up` -/

theorem upLoop_succ_eq (fuel : Nat) (pq : PriorityQueue) (j : Nat) :
    upLoop (fuel + 1) pq j =
      if (j - 1) / 2 = j ∨ Less pq j ((j - 1) / 2) = false then pq
      else upLoop fuel (Swap pq ((j - 1) / 2) j) ((j - 1) / 2) := rfl

/-- More iterations than `up` needs do not change its result. -/
theorem upLoop_fuel : ∀ (f1 f2 : Nat) (pq : PriorityQueue) (j : Nat),
    j < f1 → j < f2 → upLoop f1 pq j = upLoop f2 pq j := by
  intro f1
  induction f1 with
  | zero => intro f2 pq j h1 _; omega
  | succ f1 ih =>
    intro f2 pq j h1 h2
    cases f2 with
    | zero => omega
    | succ f2 =>
      rw [upLoop_succ_eq, upLoop_succ_eq]
      split
      · rfl
      · rename_i hc
        have hj : 0 < j := by
          rcases Nat.eq_zero_or_pos j with h0 | hp
          · exact absurd (Or.inl (by omega)) hc
          · exact hp
        exact ih _ _ _ (by omega) (by omega)

theorem length_upLoop : ∀ (fuel : Nat) (pq : PriorityQueue) (j : Nat),
    (upLoop fuel pq j).length = pq.length := by
  intro fuel
  induction fuel with
  | zero => intro pq j; rfl
  | succ fuel ih =>
    intro pq j
    rw [upLoop_succ_eq]
    split
    · rfl
    · rw [ih, length_Swap]

theorem slots_upLoop_perm : ∀ (fuel : Nat) (pq : PriorityQueue) (j : Nat),
    (slots (upLoop fuel pq j)).Perm (slots pq) := by
  intro fuel
  induction fuel with
  | zero => intro pq j; exact List.Perm.refl _
  | succ fuel ih =>
    intro pq j
    rw [upLoop_succ_eq]
    split
    · exact List.Perm.refl _
    · exact (ih _ _).trans (slots_Swap_perm _ _ _)

/-- The function `up` from a state satisfying its invariant ends in a heap. -/
theorem upLoop_heap (n : Nat) : ∀ (fuel : Nat) (pq : PriorityQueue) (j : Nat),
    pq.length = n → j < fuel → j < n → UpInv (keyAt pq) n j →
    HeapRange (keyAt (upLoop fuel pq j)) 0 n := by
  intro fuel
  induction fuel with
  | zero => intro pq j _ h _ _; omega
  | succ fuel ih =>
    intro pq j hlen hfuel hjn hinv
    rw [upLoop_succ_eq]
    split
    · rename_i hc
      rcases hc with h0 | hl
      · exact upInv_done hinv (Or.inl (by omega))
      · rcases Nat.eq_zero_or_pos j with hj0 | hjpos
        · exact upInv_done hinv (Or.inl hj0)
        · exact upInv_done hinv (Or.inr ((Less_false_iff pq _ _ (by omega) (by omega)).1 hl))
    · rename_i hc
      have hj0 : 0 < j := by
        rcases Nat.eq_zero_or_pos j with h0 | hp
        · exact absurd (Or.inl (by omega)) hc
        · exact hp
      have hl : Less pq j ((j - 1) / 2) = true := by
        cases h : Less pq j ((j - 1) / 2)
        · exact absurd (Or.inr h) hc
        · rfl
      have hlt := (Less_iff pq _ _ (by omega) (by omega)).1 hl
      have hstep := upInv_step hinv hj0 hjn hlt
      rw [← keyAt_Swap pq _ _ (by omega) (by omega)] at hstep
      exact ih _ _ (by rw [length_Swap]; exact hlen) (by omega) (by omega) hstep


/-! ### `heap.Init`, `heap.Push`, `heap.Pop` -/

theorem down_fst (pq : PriorityQueue) (i n : Nat) : (down pq i n).1 = (downLoop n pq i n).1 := rfl

/-- The loop of `heap.Init`, from parent `k - 1` down to the root. -/
theorem foldl_down_heap (n : Nat) : ∀ (k : Nat) (pq : PriorityQueue),
    pq.length = n → HeapRange (keyAt pq) k n →
    HeapRange (keyAt ((List.range k).reverse.foldl (fun q i => (down q i n).1) pq)) 0 n ∧
      ((List.range k).reverse.foldl (fun q i => (down q i n).1) pq).length = n ∧
      (slots ((List.range k).reverse.foldl (fun q i => (down q i n).1) pq)).Perm (slots pq) := by
  intro k
  induction k with
  | zero =>
    intro pq hlen h
    exact ⟨h, hlen, List.Perm.refl _⟩
  | succ k ih =>
    intro pq hlen h
    rw [List.range_succ, List.reverse_append, List.reverse_singleton, List.singleton_append,
      List.foldl_cons, down_fst]
    have hinv : DownInv (keyAt pq) k n k := by
      constructor
      · intro c hc0 hcn hlo hne
        exact h c hc0 hcn (by omega)
      · intro c hc0 hcn hp hk hlo
        omega
    have h1 := downLoop_heap k n n pq k (by omega) (by omega) (le_refl _) hinv
    have hlen1 : (downLoop n pq k n).1.length = n := by rw [length_downLoop]; exact hlen
    obtain ⟨a, b, c⟩ := ih _ hlen1 h1
    exact ⟨a, b, c.trans (slots_downLoop_perm n n pq k)⟩

theorem Init_spec (pq : PriorityQueue) :
    IsHeap (Init pq) ∧ (Init pq).length = pq.length ∧ (slots (Init pq)).Perm (slots pq) := by
  have h0 : HeapRange (keyAt pq) (pq.length / 2) pq.length := by
    intro c hc0 hcn hlo
    omega
  obtain ⟨a, b, c⟩ := foldl_down_heap pq.length (pq.length / 2) pq rfl h0
  refine ⟨?_, b, c⟩
  unfold IsHeap Init
  rw [Len_eq, Len_eq, b]
  exact a

theorem keyAt_append_left (pq : PriorityQueue) (x : PqEle) (k : Nat) (hk : k < pq.length) :
    keyAt (pq ++ [x]) k = keyAt pq k := by
  unfold keyAt
  rw [List.getElem?_append_left hk]

theorem Push_spec (pq : PriorityQueue) (x : PqEle) (h : IsHeap pq) :
    IsHeap (Push pq x) ∧ (Push pq x).length = pq.length + 1 ∧
      (slots (Push pq x)).Perm (x.slot :: slots pq) := by
  have hlen : (PriorityQueue.Push pq x).length = pq.length + 1 := by
    simp [PriorityQueue.Push]
  have hinv : UpInv (keyAt (PriorityQueue.Push pq x)) (pq.length + 1) pq.length := by
    constructor
    · intro c hc0 hcn hne
      unfold PriorityQueue.Push
      rw [keyAt_append_left _ _ _ (by omega), keyAt_append_left _ _ _ (by omega)]
      exact h c hc0 (by rw [Len_eq]; omega) (Nat.zero_le _)
    · intro c hc0 hcn hp _
      omega
  have hup := upLoop_heap (pq.length + 1) (pq.length + 1) (PriorityQueue.Push pq x) pq.length
    hlen (by omega) (by omega) hinv
  have hP : Push pq x = upLoop (pq.length + 1) (PriorityQueue.Push pq x) pq.length := by
    unfold Push up
    simp only [Len_eq, hlen, Nat.add_sub_cancel]
  have hl2 : (Push pq x).length = pq.length + 1 := by rw [hP, length_upLoop, hlen]
  refine ⟨?_, hl2, ?_⟩
  · unfold IsHeap
    rw [Len_eq, hl2, hP]
    exact hup
  · rw [hP]
    refine (slots_upLoop_perm _ _ _).trans ?_
    unfold PriorityQueue.Push slots
    rw [List.map_append]
    exact List.perm_append_comm

theorem Pop_none_iff (pq : PriorityQueue) : Pop pq = none ↔ pq = [] := by
  constructor
  · intro h
    by_contra hne
    have hlen : pq.length ≠ 0 := fun h0 => hne (List.length_eq_zero.1 h0)
    unfold Pop at h
    rw [Len_eq, if_neg hlen] at h
    unfold PriorityQueue.Pop at h
    dsimp only at h
    have hl : (down (Swap pq 0 (pq.length - 1)) 0 (pq.length - 1)).1.length = pq.length := by
      rw [down_fst, length_downLoop, length_Swap]
    have hne2 : (down (Swap pq 0 (pq.length - 1)) 0 (pq.length - 1)).1 ≠ [] := by
      intro h0; rw [h0] at hl; simp at hl; omega
    rw [List.getLast?_eq_getLast _ hne2] at h
    simp at h
  · intro h; subst h; rfl

/-- The function `heap.Pop` on a heap returns an entry with a least key and leaves a heap
of the other entries. -/
theorem Pop_spec (pq q : PriorityQueue) (x : PqEle) (h : IsHeap pq) (hp : Pop pq = some (x, q)) :
    IsHeap q ∧ q.length + 1 = pq.length ∧ (x.slot :: slots q).Perm (slots pq) ∧
      (∀ s ∈ slots pq, key x.slot ≤ key s) ∧ (∃ e, pq[0]? = some e ∧ x.slot = e.slot) := by
  have hne : pq ≠ [] := by
    intro h0; rw [(Pop_none_iff pq).2 h0] at hp; exact absurd hp (by simp)
  have hlen : 0 < pq.length := List.length_pos.2 hne
  set n := pq.length - 1 with hn
  have hn1 : n + 1 = pq.length := by omega
  set r := (downLoop n (Swap pq 0 n) 0 n).1 with hr
  have hrlen : r.length = pq.length := by rw [hr, length_downLoop, length_Swap]
  have hrn : r[n]? = some { pq[0] with index := n } := by
    rw [hr, getElem?_downLoop_ge n n _ 0 n (by rw [length_Swap]; omega) (le_refl _),
      getElem?_Swap pq 0 n n hlen (by omega), if_pos rfl]
  have hpop : Pop pq = PriorityQueue.Pop r := by
    unfold Pop
    rw [Len_eq, if_neg (by omega)]
    rfl
  have hlast : r.getLast? = some { pq[0] with index := n } := by
    rw [List.getLast?_eq_getElem?, hrlen, ← hn]; exact hrn
  rw [hpop] at hp
  unfold PriorityQueue.Pop at hp
  rw [hlast] at hp
  simp only [Option.some.injEq, Prod.mk.injEq] at hp
  obtain ⟨hx, hq⟩ := hp
  have hxslot : x.slot = pq[0].slot := by rw [← hx]
  have hqlen : q.length = n := by rw [← hq, List.length_dropLast, hrlen]
  have hrq : q ++ [x] = r := by
    rw [← hq, ← hx]
    exact List.dropLast_append_getLast? _ (by rw [hlast]; rfl)
  -- heap order of the remaining entries
  have hinv : DownInv (keyAt (Swap pq 0 n)) 0 n 0 := by
    constructor
    · intro c hc0 hcn _ hpne
      rw [keyAt_Swap pq 0 n hlen (by omega), swapF_other _ _ _ _ hpne (by omega),
        swapF_other _ _ _ _ (by omega) (by omega)]
      exact h c hc0 (by rw [Len_eq]; omega) (Nat.zero_le _)
    · intro c _ _ _ h0 _
      omega
  have hheap := downLoop_heap 0 n n (Swap pq 0 n) 0 (by rw [length_Swap]; omega) (by omega)
    (le_refl _) hinv
  rw [← hr] at hheap
  have hkq : ∀ k, k < n → keyAt q k = keyAt r k := by
    intro k hk
    rw [← hrq, keyAt_append_left _ _ _ (by omega)]
  refine ⟨?_, by omega, ?_, ?_, ⟨pq[0], List.getElem?_eq_getElem hlen, hxslot⟩⟩
  · unfold IsHeap
    rw [Len_eq, hqlen]
    intro c hc0 hcn hlo
    rw [hkq c hcn, hkq _ (by omega)]
    exact hheap c hc0 hcn hlo
  · have h1 : (slots r).Perm (slots pq) :=
      (slots_downLoop_perm n n _ 0).trans (slots_Swap_perm pq 0 n)
    rw [← hrq] at h1
    unfold slots at h1 ⊢
    rw [List.map_append] at h1
    exact (List.perm_append_comm).trans h1
  · intro s hs
    unfold slots at hs
    rw [List.mem_map] at hs
    obtain ⟨e, he, hes⟩ := hs
    obtain ⟨k, hk, hke⟩ := List.mem_iff_getElem.1 he
    have hroot := heapRange_root_le h k (by rw [Len_eq]; exact hk)
    unfold keyAt at hroot
    rw [List.getElem?_eq_getElem hlen, List.getElem?_eq_getElem hk] at hroot
    rw [hxslot, ← hes, ← hke]
    exact hroot


/-! ### Draining the queue -/

theorem built_isHeap {pq : PriorityQueue} (h : Built pq) : IsHeap pq := by
  induction h with
  | init pq => exact (Init_spec pq).1
  | push pq x _ ih => exact (Push_spec pq x ih).1
  | pop pq q x _ hp ih => exact (Pop_spec pq q x ih hp).1

theorem drainLoop_succ_some (fuel : Nat) (pq q : PriorityQueue) (x : PqEle)
    (h : Pop pq = some (x, q)) : drainLoop (fuel + 1) pq = x :: drainLoop fuel q := by
  simp [drainLoop, h]

theorem drainLoop_succ_none (fuel : Nat) (pq : PriorityQueue)
    (h : Pop pq = none) : drainLoop (fuel + 1) pq = [] := by
  simp [drainLoop, h]

/-- Draining a heap returns every slot once, in non-decreasing key order. -/
theorem drainLoop_spec : ∀ (fuel : Nat) (pq : PriorityQueue), pq.length ≤ fuel → IsHeap pq →
    (slots (drainLoop fuel pq)).Perm (slots pq) ∧
      (drainLoop fuel pq).Pairwise (fun a b => key a.slot ≤ key b.slot) := by
  intro fuel
  induction fuel with
  | zero =>
    intro pq hlen _
    have : pq = [] := List.length_eq_zero.1 (by omega)
    subst this
    exact ⟨List.Perm.refl _, List.Pairwise.nil⟩
  | succ fuel ih =>
    intro pq hlen hh
    cases hp : Pop pq with
    | none =>
      have : pq = [] := (Pop_none_iff pq).1 hp
      subst this
      rw [drainLoop_succ_none _ _ hp]
      exact ⟨List.Perm.refl _, List.Pairwise.nil⟩
    | some xq =>
      obtain ⟨x, q⟩ := xq
      obtain ⟨hq, hql, hperm, hmin, _⟩ := Pop_spec pq q x hh hp
      obtain ⟨ihp, ihs⟩ := ih q (by omega) hq
      rw [drainLoop_succ_some _ _ _ _ hp]
      constructor
      · show (x.slot :: slots (drainLoop fuel q)).Perm (slots pq)
        exact (List.Perm.cons _ ihp).trans hperm
      · rw [List.pairwise_cons]
        refine ⟨?_, ihs⟩
        intro b hb
        apply hmin
        have hb1 : b.slot ∈ slots (drainLoop fuel q) := List.mem_map_of_mem _ hb
        have hb2 : b.slot ∈ slots q := ihp.subset hb1
        exact hperm.subset (List.mem_cons_of_mem _ hb2)

theorem drain_spec (pq : PriorityQueue) (h : IsHeap pq) :
    (slots (drain pq)).Perm (slots pq) ∧
      (drain pq).Pairwise (fun a b => key a.slot ≤ key b.slot) :=
  drainLoop_spec (Len pq) pq (le_refl _) h

/-- More iterations than the queue has entries do not change the drain. -/
theorem drainLoop_fuel : ∀ (f1 f2 : Nat) (pq : PriorityQueue), pq.length ≤ f1 → pq.length ≤ f2 →
    drainLoop f1 pq = drainLoop f2 pq := by
  intro f1
  induction f1 with
  | zero =>
    intro f2 pq h1 _
    have : pq = [] := List.length_eq_zero.1 (by omega)
    subst this
    cases f2 <;> rfl
  | succ f1 ih =>
    intro f2 pq h1 h2
    cases hp : Pop pq with
    | none =>
      have : pq = [] := (Pop_none_iff pq).1 hp
      subst this
      cases f2 <;> rfl
    | some xq =>
      obtain ⟨x, q⟩ := xq
      cases f2 with
      | zero =>
        have : pq = [] := List.length_eq_zero.1 (by omega)
        subst this
        simp [Pop, Len] at hp
      | succ f2 =>
        have hql : q.length + 1 = pq.length := by
          have hne : pq ≠ [] := fun h0 => by rw [(Pop_none_iff pq).2 h0] at hp; simp at hp
          have hlen : 0 < pq.length := List.length_pos.2 hne
          unfold Pop at hp
          rw [Len_eq, if_neg (by omega)] at hp
          unfold PriorityQueue.Pop at hp
          dsimp only at hp
          split at hp
          · simp only [Option.some.injEq, Prod.mk.injEq] at hp
            rw [← hp.2, List.length_dropLast, down_fst, length_downLoop, length_Swap]
            omega
          · simp at hp
        rw [drainLoop_succ_some _ _ _ _ hp, drainLoop_succ_some _ _ _ _ hp,
          ih f2 q (by omega) (by omega)]

theorem key_of_ne_zero (s : TxqSlot) (h : s.RetryDeadline ≠ 0) :
    key s = (s.RetryDeadline : WithTop Int) := by
  unfold key; rw [if_neg h]

theorem key_of_zero (s : TxqSlot) (h : s.RetryDeadline = 0) : key s = ⊤ := by
  unfold key; rw [if_pos h]

theorem pushAll_spec : ∀ (xs : List PqEle) (pq : PriorityQueue), IsHeap pq →
    IsHeap (pushAll pq xs) ∧ (slots (pushAll pq xs)).Perm (slots pq ++ slots xs) := by
  intro xs
  induction xs with
  | nil =>
    intro pq h
    refine ⟨h, ?_⟩
    show (slots pq).Perm (slots pq ++ [])
    rw [List.append_nil]
  | cons x xs ih =>
    intro pq h
    obtain ⟨h1, _, h3⟩ := Push_spec pq x h
    obtain ⟨a, b⟩ := ih (Push pq x) h1
    refine ⟨a, b.trans ?_⟩
    show (slots (Push pq x) ++ slots xs).Perm (slots pq ++ (x.slot :: slots xs))
    refine (List.Perm.append_right _ h3).trans ?_
    show (x.slot :: (slots pq ++ slots xs)).Perm (slots pq ++ x.slot :: slots xs)
    exact List.perm_middle.symm

theorem isHeap_nil : IsHeap [] := by
  intro c _ hcn _
  simp [Len] at hcn

/-- Strictly increasing deadlines from non-decreasing keys, when the deadlines
are distinct and none is zero. -/
theorem deadlines_strict (out : List PqEle)
    (hs : out.Pairwise (fun a b => key a.slot ≤ key b.slot))
    (hnz : ∀ e ∈ out, e.slot.RetryDeadline ≠ 0) (hnd : (deadlines out).Nodup) :
    (deadlines out).Pairwise (fun a b => a < b) := by
  unfold deadlines at hnd ⊢
  rw [List.pairwise_map]
  rw [List.Nodup, List.pairwise_map] at hnd
  have h2 := hs.and hnd
  refine List.Pairwise.imp_of_mem ?_ h2
  intro a b ha hb hab
  obtain ⟨hle, hne⟩ := hab
  rw [key_of_ne_zero _ (hnz a ha), key_of_ne_zero _ (hnz b hb), WithTop.coe_le_coe] at hle
  exact lt_of_le_of_ne hle hne


/-! ### An entry that sorts before every other -/

/-- The function `heap.Pop` on a non-empty queue returns the entry at the root. -/
theorem Pop_root (pq : PriorityQueue) (hlen : 0 < pq.length) :
    ∃ x q, Pop pq = some (x, q) ∧ ∃ e, pq[0]? = some e ∧ x.slot = e.slot := by
  have hrn : (downLoop (pq.length - 1) (Swap pq 0 (pq.length - 1)) 0 (pq.length - 1)).1[pq.length - 1]?
      = some { pq[0] with index := ((pq.length - 1 : Nat) : Int) } := by
    rw [getElem?_downLoop_ge _ _ _ 0 _ (by rw [length_Swap]; omega) (le_refl _),
      getElem?_Swap pq 0 _ _ hlen (by omega), if_pos rfl]
  have hrlen : (downLoop (pq.length - 1) (Swap pq 0 (pq.length - 1)) 0 (pq.length - 1)).1.length
      = pq.length := by rw [length_downLoop, length_Swap]
  have hlast : (downLoop (pq.length - 1) (Swap pq 0 (pq.length - 1)) 0 (pq.length - 1)).1.getLast?
      = some { pq[0] with index := ((pq.length - 1 : Nat) : Int) } := by
    rw [List.getLast?_eq_getElem?, hrlen]; exact hrn
  refine ⟨{ pq[0] with index := ((pq.length - 1 : Nat) : Int) },
    (downLoop (pq.length - 1) (Swap pq 0 (pq.length - 1)) 0 (pq.length - 1)).1.dropLast, ?_,
    pq[0], List.getElem?_eq_getElem hlen, rfl⟩
  unfold Pop
  rw [Len_eq, if_neg (by omega)]
  show PriorityQueue.Pop (downLoop (pq.length - 1) (Swap pq 0 (pq.length - 1)) 0
    (pq.length - 1)).1 = _
  unfold PriorityQueue.Pop
  rw [hlast]

/-- The function `down` leaves an entry in place that sorts strictly before every other. -/
theorem downLoop_least (pq : PriorityQueue) (i n : Nat) (hn : n ≤ pq.length)
    (hmin : ∀ k, k < pq.length → k ≠ i → keyAt pq i < keyAt pq k) (hi : i < pq.length) :
    ∀ fuel, downLoop fuel pq i n = (pq, i) := by
  intro fuel
  cases fuel with
  | zero => rfl
  | succ fuel =>
    rw [downLoop_succ_eq]
    by_cases hj1 : 2 * i + 1 ≥ n
    · rw [if_pos hj1]
    · rw [if_neg hj1]
      generalize hj : (if 2 * i + 1 + 1 < n ∧ Less pq (2 * i + 1 + 1) (2 * i + 1) = true
          then 2 * i + 1 + 1 else 2 * i + 1) = j
      have hij : i < j ∧ j < n := by rw [← hj]; split <;> omega
      have hl : Less pq j i = false :=
        (Less_false_iff pq j i (by omega) hi).2 (le_of_lt (hmin j (by omega) (by omega)))
      rw [if_pos hl]

/-- The function `up` carries an entry that sorts strictly before every other to the root. -/
theorem upLoop_least : ∀ (fuel : Nat) (pq : PriorityQueue) (j : Nat) (s : TxqSlot),
    j < fuel → (∃ e, pq[j]? = some e ∧ e.slot = s) →
    (∀ k, k < pq.length → k ≠ j → keyAt pq j < keyAt pq k) →
    ∃ e, (upLoop fuel pq j)[0]? = some e ∧ e.slot = s := by
  intro fuel
  induction fuel with
  | zero => intro pq j s h _ _; omega
  | succ fuel ih =>
    intro pq j s hfuel hj hmin
    obtain ⟨e, he, hes⟩ := hj
    have hjlen : j < pq.length := by
      rcases List.getElem?_eq_some.1 he with ⟨h, _⟩; exact h
    rw [upLoop_succ_eq]
    rcases Nat.eq_zero_or_pos j with h0 | hpos
    · subst h0
      rw [if_pos (Or.inl rfl)]
      exact ⟨e, he, hes⟩
    · have hpar : (j - 1) / 2 < j := by omega
      have hl : Less pq j ((j - 1) / 2) = true :=
        (Less_iff pq j _ hjlen (by omega)).2 (hmin _ (by omega) (by omega))
      have hc : ¬ ((j - 1) / 2 = j ∨ Less pq j ((j - 1) / 2) = false) := by
        rintro (h | h)
        · omega
        · rw [hl] at h; exact absurd h (by simp)
      rw [if_neg hc]
      apply ih _ _ s (by omega)
      · refine ⟨{ pq[j] with index := (((j - 1) / 2 : Nat) : Int) }, ?_, ?_⟩
        · rw [getElem?_Swap pq _ j _ (by omega) hjlen, if_neg (by omega), if_pos rfl]
        · have : pq[j] = e := by
            rw [List.getElem?_eq_getElem hjlen] at he
            exact Option.some.inj he
          rw [← hes, ← this]
      · intro k hk hkne
        rw [length_Swap] at hk
        rw [keyAt_Swap pq _ j (by omega) hjlen, swapF_at_left]
        by_cases hkj : k = j
        · rw [hkj, swapF_at_right]
          exact hmin _ (by omega) (by omega)
        · rw [swapF_other _ _ _ _ hkne hkj]
          exact hmin k hk hkj


/-! ## Retry scheduler: the properties of the design document -/

theorem deadlines_eq_map_slots (xs : List PqEle) :
    deadlines xs = (slots xs).map (fun s => s.RetryDeadline) := by
  unfold deadlines slots
  rw [List.map_map]; rfl

theorem drain_strict_of_heap (pq : PriorityQueue) (xs : List PqEle) (h : IsHeap pq)
    (hperm : (slots pq).Perm (slots xs))
    (hnz : ∀ e ∈ xs, e.slot.RetryDeadline ≠ 0) (hnd : (deadlines xs).Nodup) :
    (slots (drain pq)).Perm (slots xs) ∧
      (deadlines (drain pq)).Pairwise (fun a b => a < b) := by
  obtain ⟨hp, hs⟩ := drain_spec pq h
  have hp2 := hp.trans hperm
  refine ⟨hp2, deadlines_strict _ hs ?_ ?_⟩
  · intro e he
    have h1 : e.slot ∈ slots xs := hp2.subset (List.mem_map_of_mem _ he)
    unfold slots at h1
    rw [List.mem_map] at h1
    obtain ⟨e2, he2, hes⟩ := h1
    rw [← hes]; exact hnz e2 he2
  · rw [deadlines_eq_map_slots] at hnd ⊢
    exact ((hp2.map _).nodup_iff).2 hnd

/-- C5. For entries with pairwise distinct non-zero deadlines, in any order,
heapified by `heap.Init` or inserted one by one by `heap.Push`: popping until
the queue is empty returns every entry exactly once, and the popped deadlines
are strictly increasing. -/
theorem drain_strictly_increasing (xs : List PqEle)
    (hnz : ∀ e ∈ xs, e.slot.RetryDeadline ≠ 0) (hnd : (deadlines xs).Nodup) :
    ((slots (drain (Init xs))).Perm (slots xs) ∧
        (deadlines (drain (Init xs))).Pairwise (fun a b => a < b)) ∧
      ((slots (drain (pushAll [] xs))).Perm (slots xs) ∧
        (deadlines (drain (pushAll [] xs))).Pairwise (fun a b => a < b)) := by
  constructor
  · obtain ⟨h1, _, h3⟩ := Init_spec xs
    exact drain_strict_of_heap _ xs h1 h3 hnz hnd
  · obtain ⟨h1, h2⟩ := pushAll_spec xs [] isHeap_nil
    exact drain_strict_of_heap _ xs h1 h2 hnz hnd

theorem drain_strictly_increasing_witness :
    (slots (drain (Init testQueue))).Perm (slots testQueue) ∧
      (deadlines (drain (Init testQueue))).Pairwise (fun a b => a < b) :=
  (drain_strictly_increasing testQueue (by decide) (by decide)).1


theorem lessSlot_zero_left (a b : TxqSlot) (h : a.RetryDeadline = 0) : lessSlot a b = false := by
  unfold lessSlot; rw [if_pos h]

/-- Pushing an entry with the zero deadline leaves it where it was appended. -/
theorem Push_zero_deadline (pq : PriorityQueue) (x : PqEle) (hx : x.slot.RetryDeadline = 0) :
    Push pq x = pq ++ [{ x with index := (pq.length : Int) }] := by
  have hlen : (PriorityQueue.Push pq x).length = pq.length + 1 := by
    simp [PriorityQueue.Push]
  unfold Push up
  simp only [Len_eq, hlen, Nat.add_sub_cancel]
  rw [upLoop_succ_eq]
  have hl : Less (PriorityQueue.Push pq x) pq.length ((pq.length - 1) / 2) = false := by
    unfold Less PriorityQueue.Push
    rw [List.getElem?_append_right (le_refl _)]
    simp only [Nat.sub_self, List.getElem?_cons_zero]
    cases h : (pq ++ [{ x with index := (pq.length : Int) }])[(pq.length - 1) / 2]? with
    | none => rfl
    | some b => exact lessSlot_zero_left _ _ hx
  rw [if_pos (Or.inr hl)]
  rfl

/-- C3. In every queue built by `heap.Init`, `heap.Push` and `heap.Pop`,
whatever the entries and their order of insertion, repeated `heap.Pop` returns
every entry, and an entry with the zero deadline is returned only after every
entry with a non-zero deadline; and `heap.Push` of an entry with the zero
deadline onto a queue of `n` entries leaves it at the last position, `n`. -/
theorem zero_deadline_sorts_last (pq : PriorityQueue) (hb : Built pq) :
    (slots (drain pq)).Perm (slots pq) ∧
      (drain pq).Pairwise (fun a b => a.slot.RetryDeadline = 0 → b.slot.RetryDeadline = 0) ∧
      ∀ x : PqEle, x.slot.RetryDeadline = 0 →
        (Push pq x)[pq.length]? = some { x with index := (pq.length : Int) } := by
  obtain ⟨hp, hs⟩ := drain_spec pq (built_isHeap hb)
  refine ⟨hp, ?_, ?_⟩
  · refine List.Pairwise.imp ?_ hs
    intro a b hab ha
    by_contra hbz
    rw [key_of_zero _ ha, key_of_ne_zero _ hbz] at hab
    exact absurd hab (not_le.2 (WithTop.coe_lt_top _))
  · intro x hx
    rw [Push_zero_deadline pq x hx, List.getElem?_append_right (le_refl _)]
    simp

theorem zero_deadline_sorts_last_witness :
    (slots (drain (Push (Init testQueue) testItem))).Perm (slots (Push (Init testQueue) testItem)) ∧
      (drain (Push (Init testQueue) testItem)).Pairwise
        (fun a b => a.slot.RetryDeadline = 0 → b.slot.RetryDeadline = 0) ∧
      ∀ x : PqEle, x.slot.RetryDeadline = 0 →
        (Push (Push (Init testQueue) testItem) x)[(Push (Init testQueue) testItem).length]? =
          some { x with index := ((Push (Init testQueue) testItem).length : Int) } :=
  zero_deadline_sorts_last _ (Built.push _ testItem (Built.init testQueue))

theorem update_eq_Fix (pq : PriorityQueue) (item : PqEle) (i : Nat) (s : TxqSlot)
    (hi : pq[i]? = some item) (hidx : item.index = (i : Int)) :
    update pq item s = Fix (pq.set i { item with slot := s }) i := by
  unfold update
  have : item.index.toNat = i := by rw [hidx]; simp
  simp only [this, hi]

/-- C4. When the deadline of an entry of the queue is set to a non-zero time
earlier than the deadline of every other live entry and `update` is called
for it, the next `heap.Pop` returns that entry. -/
theorem update_earliest_pops_first (pq : PriorityQueue) (item : PqEle) (i : Nat) (d : Int)
    (hi : pq[i]? = some item) (hidx : item.index = (i : Int)) (hd : d ≠ 0)
    (hlt : ∀ (k : Nat) (e : PqEle), k ≠ i → pq[k]? = some e →
      e.slot.RetryDeadline = 0 ∨ d < e.slot.RetryDeadline) :
    ∃ x q, Pop (update pq item { item.slot with RetryDeadline := d }) = some (x, q) ∧
      x.slot = { item.slot with RetryDeadline := d } := by
  have hilen : i < pq.length := by
    rcases List.getElem?_eq_some.1 hi with ⟨h, _⟩; exact h
  rw [update_eq_Fix pq item i _ hi hidx]
  set s : TxqSlot := { item.slot with RetryDeadline := d } with hs
  set pq1 : PriorityQueue := pq.set i { item with slot := s } with hpq1
  have hlen1 : pq1.length = pq.length := by rw [hpq1, List.length_set]
  have hat : pq1[i]? = some { item with slot := s } := by
    rw [hpq1, List.getElem?_set_self hilen]
  have hkey : keyAt pq1 i = (d : WithTop Int) := by
    unfold keyAt; rw [hat]
    exact key_of_ne_zero s hd
  have hmin : ∀ k, k < pq1.length → k ≠ i → keyAt pq1 i < keyAt pq1 k := by
    intro k hk hki
    rw [hkey]
    have hk2 : k < pq.length := by omega
    have hget : pq1[k]? = some pq[k] := by
      rw [hpq1, List.getElem?_set_ne (fun h => hki h.symm), List.getElem?_eq_getElem hk2]
    unfold keyAt; rw [hget]
    show (d : WithTop Int) < key pq[k].slot
    rcases hlt k pq[k] hki (List.getElem?_eq_getElem hk2) with hz | hlt2
    · rw [key_of_zero _ hz]; exact WithTop.coe_lt_top _
    · by_cases hz : pq[k].slot.RetryDeadline = 0
      · rw [key_of_zero _ hz]; exact WithTop.coe_lt_top _
      · rw [key_of_ne_zero _ hz]; exact WithTop.coe_lt_coe.2 hlt2
  have hdown : down pq1 i (Len pq1) = (pq1, false) := by
    unfold down
    rw [downLoop_least pq1 i (Len pq1) (le_refl _) hmin (by omega)]
    simp
  have hfix : Fix pq1 i = up pq1 i := by
    unfold Fix
    rw [hdown]
    simp
  obtain ⟨e, he, hes⟩ := upLoop_least (i + 1) pq1 i s (by omega)
    ⟨_, hat, rfl⟩ hmin
  have hlenF : 0 < (Fix pq1 i).length := by
    rw [hfix]; unfold up; rw [length_upLoop]; omega
  obtain ⟨x, q, hpop, e2, he2, hx⟩ := Pop_root (Fix pq1 i) hlenF
  refine ⟨x, q, hpop, ?_⟩
  rw [hfix] at he2
  unfold up at he2
  rw [he] at he2
  rw [hx, ← Option.some.inj he2, hes]

theorem update_earliest_pops_first_witness :
    ∃ x q, Pop (update (Push (Init testQueue) testItem) { testItem with index := 10 }
        { testItem.slot with RetryDeadline := unixTime 1 0 }) = some (x, q) ∧
      x.slot = { testItem.slot with RetryDeadline := unixTime 1 0 } :=
  update_earliest_pops_first (Push (Init testQueue) testItem) { testItem with index := 10 } 10
    (unixTime 1 0) (by decide) rfl (by decide)
    (fun _ e _ h =>
      (by decide : ∀ e ∈ Push (Init testQueue) testItem,
        e.slot.RetryDeadline = 0 ∨ unixTime 1 0 < e.slot.RetryDeadline) e
        (List.getElem?_mem h))


end Swp
